import Mathlib

/-!
# SimpleVector: a shallow embedding of `simple_vector.h`

The growable array of `src/simple-vector/simple_vector.h` is embedded as a
record of an owned buffer and the two counters `size_` and `capacity_`.

* The buffer is a block of exactly the slots it was allocated with, and every
  read or write of a slot is checked against that block: an access outside of
  it (undefined behaviour in C++) is the fault `Fault.outOfBounds`.
* A failed `assert` is the fault `Fault.assertion`; the exception thrown by
  `At` is the fault `Fault.outOfRange`.
* Iterators are offsets from `begin()`. Taking the address `&vector_[k]`
  (as `begin()` and `end()` do) reads no slot and is not checked.
* `size_t` values are natural numbers. Every count that the source doubles
  or increments is at most the length of a block that was really allocated
  (allocation failure is outside of the model), and no block of `2^63`
  elements can be allocated, so no wrap-around is reachable.
* `std::move` of an element copies the value to its destination and leaves
  the source slot in the state `MovedFrom.movedFrom` of its old value, the
  "valid but unspecified" state of the element type (for `int`, the value
  itself). Where the source block is released right after the moves, or the
  source is an object of the caller, that state is not part of the vector.
* A `const Type&` argument is a reference: it is read where the source reads
  it. `PushBack` reads it before any slot changes, so it is a value there;
  `Insert` reads it behind its shift loop, see `InsertRef`. The `Type&&`
  overloads are covered for arguments that are no elements of the vector.
-/

namespace SimpleVectorModel

deriving instance DecidableEq for Except

/-- Ways in which a call can fail to return. -/
inductive Fault where
  | assertion
  | outOfBounds
  | outOfRange
  deriving DecidableEq, Repr

/-- The state in which `std::move` leaves an object of the element type:
valid but unspecified, so nothing is assumed about `movedFrom`. -/
class MovedFrom (α : Type) where
  movedFrom : α → α

/-- Moving an `int` copies it. -/
instance : MovedFrom Nat := ⟨fun x => x⟩

/-- Modelled from the spec: `array_ptr.h` (the class `ArrayPtr`) is not among the
sources. The spec describes it as the exclusive owner of one contiguous block
of exactly N slots, sized at construction, with unchecked access by offset and
a constant-time swap. The block is the list `raw`; N is its length. -/
structure ArrayPtr (α : Type) where
  raw : List α
  deriving DecidableEq, Repr

namespace ArrayPtr

variable {α : Type}

/-- Number of slots of the block (the N of the spec). -/
def slots (a : ArrayPtr α) : Nat := a.raw.length

/-- Modelled from the spec: `ArrayPtr(n)` "allocates storage for n default-constructed
elements" (n = 0 gives the empty state). -/
def alloc [Inhabited α] (n : Nat) : ArrayPtr α := ⟨List.replicate n default⟩

/-- Read of `a[i]`; outside of the block it is undefined behaviour. -/
def read (a : ArrayPtr α) (i : Nat) : Except Fault α :=
  match a.raw[i]? with
  | some x => .ok x
  | none => .error .outOfBounds

/-- Write `a[i] = x`; outside of the block it is undefined behaviour. -/
def write (a : ArrayPtr α) (i : Nat) (x : α) : Except Fault (ArrayPtr α) :=
  if i < a.raw.length then .ok ⟨a.raw.set i x⟩ else .error .outOfBounds

end ArrayPtr

/-- The class `SimpleVector<Type>`: the private members `vector_`, `size_`
and `capacity_`. -/
structure SimpleVector (α : Type) where
  vector_ : ArrayPtr α
  size_ : Nat
  capacity_ : Nat
  deriving DecidableEq, Repr

variable {α : Type}

/-- The live range: the slots at offsets `[0, size_)`, what `begin()` to
`end()` traverses. -/
def live (v : SimpleVector α) : List α := v.vector_.raw.take v.size_

/-- What the reference `value` of `Insert(ConstIterator, const Type&)`
refers to: an object that is no slot of the block of the vector, or the slot
at an offset of that block, as in `v.Insert(pos, v[i])`. -/
inductive ValueRef (α : Type) where
  | outside (x : α)
  | slot (i : Nat)
  deriving DecidableEq, Repr

/-- The read of `value` in `vector_[index] = value`, which `Insert` executes
behind its growth branch and its shift loop, on the block as they left it. A
reference into the old block dangles once the growth branch has released that
block. -/
def ValueRef.read (value : ValueRef α) (buf : ArrayPtr α) (released : Bool) : Except Fault α :=
  match value with
  | .outside x => .ok x
  | .slot i => if released then .error .outOfBounds else buf.read i

/-- `std::copy(first, last, d_first)` and `std::move(first, last, d_first)`
between two different blocks: `n` elements, read at `src[first ..]` and
written at `dst[d ..]`, front to back. Every source block of a
`std::move` is released right after the call, so it is not returned. -/
def copyRange (src : ArrayPtr α) : Nat → Nat → ArrayPtr α → Nat → Except Fault (ArrayPtr α)
  | 0, _, dst, _ => .ok dst
  | n + 1, first, dst, d => do
      let x ← src.read first
      let dst1 ← dst.write d x
      copyRange src n (first + 1) dst1 (d + 1)

/-- `std::move(first, last, d_first)` inside one block (used by `Erase`):
`n` elements, each read after the writes before it; `*d = std::move(*first)`
leaves the slot at `first` moved-from. -/
def moveWithin [MovedFrom α] : Nat → Nat → ArrayPtr α → Nat → Except Fault (ArrayPtr α)
  | 0, _, buf, _ => .ok buf
  | n + 1, first, buf, d => do
      let x ← buf.read first
      let buf1 ← buf.write d x
      let buf2 ← buf1.write first (MovedFrom.movedFrom x)
      moveWithin n (first + 1) buf2 (d + 1)

/-- The loop of `Insert`:
`for (size_t i = size_; i > index; --i) vector_[i] = vector_[i - 1];`
with `n` iterations left and the loop variable at `i`. -/
def shiftRight : Nat → Nat → ArrayPtr α → Except Fault (ArrayPtr α)
  | 0, _, buf => .ok buf
  | n + 1, i, buf => do
      let x ← buf.read (i - 1)
      let buf1 ← buf.write i x
      shiftRight n (i - 1) buf1

/-- The loop of `Resize`:
`for (auto it = begin() + new_size; it != end(); --it) *it = Type();`
with `n` iterations left and the iterator at offset `it`. -/
def fillDown [Inhabited α] : Nat → Nat → ArrayPtr α → Except Fault (ArrayPtr α)
  | 0, _, buf => .ok buf
  | n + 1, it, buf => do
      let buf1 ← buf.write it default
      fillDown n (it - 1) buf1

/-- `std::fill(first, last, value)`: `n` writes of `value`, front to back from
offset `i`. -/
def fillRange : Nat → Nat → ArrayPtr α → α → Except Fault (ArrayPtr α)
  | 0, _, buf, _ => .ok buf
  | n + 1, i, buf, value => do
      let buf1 ← buf.write i value
      fillRange n (i + 1) buf1 value

/-- The loop of `std::equal` over two ranges of the same length: `n` pairs
left, the next one at offset `i`, compared with the `==` of the elements. -/
def equalLoop [BEq α] (a b : ArrayPtr α) : Nat → Nat → Except Fault Bool
  | 0, _ => .ok true
  | n + 1, i => do
      let x ← a.read i
      let y ← b.read i
      if x == y then equalLoop a b n (i + 1) else .ok false

/-- The loop of `std::lexicographical_compare` over `[0, sa)` and `[0, sb)`:
`for (; first1 != last1 && first2 != last2; ++first1, ++first2)` with `n`
iterations left and both iterators at offset `i`, then
`return first1 == last1 && first2 != last2;`. -/
def lexLoop [LT α] [DecidableRel (fun x y : α => x < y)] (a b : ArrayPtr α) (sa sb : Nat) :
    Nat → Nat → Except Fault Bool
  | 0, i => .ok (decide (i = sa) && decide (i ≠ sb))
  | n + 1, i => do
      let x ← a.read i
      let y ← b.read i
      if x < y then .ok true
      else if y < x then .ok false
      else lexLoop a b sa sb n (i + 1)

namespace SimpleVector

/-- `SimpleVector() noexcept = default;` -/
def empty : SimpleVector α := ⟨⟨[]⟩, 0, 0⟩

/-- `explicit SimpleVector(size_t size)` -/
def ofSize [Inhabited α] (size : Nat) : SimpleVector α :=
  ⟨ArrayPtr.alloc size, size, size⟩

/-- `SimpleVector(std::initializer_list<Type> init)`: a block of `init.size()`
slots, then `std::copy(init.begin(), init.end(), begin())`. -/
def ofList [Inhabited α] (init : List α) : Except Fault (SimpleVector α) := do
  let buf ← copyRange ⟨init⟩ init.length 0 (ArrayPtr.alloc init.length) 0
  pure ⟨buf, init.length, init.length⟩

/-- `size_t GetSize() const noexcept` -/
def GetSize (v : SimpleVector α) : Nat := v.size_

/-- `size_t GetCapacity() const noexcept` -/
def GetCapacity (v : SimpleVector α) : Nat := v.capacity_

/-- `bool IsEmpty() const noexcept` -/
def IsEmpty (v : SimpleVector α) : Bool := if v.size_ = 0 then true else false

/-- `Type& operator[](size_t index) noexcept` -/
def index (v : SimpleVector α) (i : Nat) : Except Fault α := v.vector_.read i

/-- `Type& At(size_t index)` -/
def At (v : SimpleVector α) (i : Nat) : Except Fault α :=
  if i ≥ v.size_ then .error .outOfRange else v.vector_.read i

/-- `void Reserve(size_t new_capacity)` -/
def Reserve [Inhabited α] (v : SimpleVector α) (new_capacity : Nat) :
    Except Fault (SimpleVector α) :=
  if new_capacity > v.capacity_ then do
    let tmp ← copyRange v.vector_ v.size_ 0 (ArrayPtr.alloc new_capacity) 0
    pure { vector_ := tmp, size_ := v.size_, capacity_ := new_capacity }
  else
    pure v

/-- `void PushBack(const Type& item)`; `PushBack(Type&& item)` has the same
control flow with moves for copies. -/
def PushBack [Inhabited α] (v : SimpleVector α) (item : α) : Except Fault (SimpleVector α) :=
  if v.size_ < v.capacity_ then do
    let buf ← v.vector_.write v.size_ item
    pure { vector_ := buf, size_ := v.size_ + 1, capacity_ := v.capacity_ }
  else do
    let tmp : SimpleVector α := ofSize (if v.capacity_ = 0 then 1 else v.capacity_ * 2)
    let buf ← copyRange v.vector_ v.size_ 0 tmp.vector_ 0
    let buf ← buf.write v.size_ item
    pure { vector_ := buf, size_ := v.size_ + 1, capacity_ := tmp.capacity_ }

/-- `Iterator Insert(ConstIterator pos, const Type& value)` with `pos` at
offset `index`, for a `value` that is no slot of the block of this vector
(`InsertRef` is the call for any reference, and `Insert_eq_InsertRef` relates
the two). The overload taking `Type&&` does the same for such an object: the
slots its shift loop leaves moved-from are all overwritten. The result is the
new vector and the offset of the returned iterator. -/
def Insert [Inhabited α] (v : SimpleVector α) (index : Nat) (value : α) :
    Except Fault (SimpleVector α × Nat) :=
  if index ≤ v.size_ then do
    let grown ←
      if v.size_ = v.capacity_ then
        if v.size_ ≠ 0 then do
          let tmp ← copyRange v.vector_ v.size_ 0 (ArrayPtr.alloc v.size_) 0
          pure (tmp, v.size_ * 2)
        else do
          let tmp ← copyRange v.vector_ v.size_ 0 (ArrayPtr.alloc 1) 0
          pure (tmp, 1)
      else
        pure (v.vector_, v.capacity_)
    let buf ← shiftRight (v.size_ - index) v.size_ grown.1
    let buf ← buf.write index value
    pure ({ vector_ := buf, size_ := v.size_ + 1, capacity_ := grown.2 }, index)
  else
    .error .assertion

/-- `Iterator Insert(ConstIterator pos, const Type& value)` with `pos` at
offset `index` and `value` a reference: the growth branch and the shift loop
run first, then `vector_[index] = value` reads the reference. The third
component of `grown` records that the old block was released. -/
def InsertRef [Inhabited α] (v : SimpleVector α) (index : Nat) (value : ValueRef α) :
    Except Fault (SimpleVector α × Nat) :=
  if index ≤ v.size_ then do
    let grown ←
      if v.size_ = v.capacity_ then
        if v.size_ ≠ 0 then do
          let tmp ← copyRange v.vector_ v.size_ 0 (ArrayPtr.alloc v.size_) 0
          pure (tmp, v.size_ * 2, true)
        else do
          let tmp ← copyRange v.vector_ v.size_ 0 (ArrayPtr.alloc 1) 0
          pure (tmp, 1, true)
      else
        pure (v.vector_, v.capacity_, false)
    let buf ← shiftRight (v.size_ - index) v.size_ grown.1
    let x ← value.read buf grown.2.2
    let buf ← buf.write index x
    pure ({ vector_ := buf, size_ := v.size_ + 1, capacity_ := grown.2.1 }, index)
  else
    .error .assertion

/-- `void PopBack() noexcept` -/
def PopBack (v : SimpleVector α) : Except Fault (SimpleVector α) :=
  if v.IsEmpty then .error .assertion
  else pure { v with size_ := v.size_ - 1 }

/-- `Iterator Erase(ConstIterator pos)` with `pos` at offset `index`:
`std::move(&vector_[index + 1], end(), pos)`. A range whose first iterator
lies behind `end()` is undefined behaviour. -/
def Erase [MovedFrom α] (v : SimpleVector α) (index : Nat) :
    Except Fault (SimpleVector α × Nat) :=
  if v.IsEmpty then .error .assertion
  else if index + 1 ≤ v.size_ then do
    let buf ← moveWithin (v.size_ - (index + 1)) (index + 1) v.vector_ index
    pure ({ v with vector_ := buf, size_ := v.size_ - 1 }, index)
  else
    .error .outOfBounds

/-- `void Clear() noexcept` -/
def Clear (v : SimpleVector α) : SimpleVector α := { v with size_ := 0 }

/-- `void Resize(size_t new_size)` -/
def Resize [Inhabited α] (v : SimpleVector α) (new_size : Nat) :
    Except Fault (SimpleVector α) :=
  if v.size_ ≥ new_size then
    pure { v with size_ := new_size }
  else if v.size_ < new_size ∧ v.capacity_ > new_size then do
    let buf ← fillDown (new_size - v.size_) new_size v.vector_
    pure { v with vector_ := buf, size_ := new_size }
  else do
    let tmp ← copyRange v.vector_ v.size_ 0 (ArrayPtr.alloc new_size) 0
    pure { vector_ := tmp, size_ := new_size, capacity_ := new_size * 2 }

/-- `SimpleVector(size_t size, const Type& value)`: a block of `size` slots,
then `std::fill(begin(), end(), value)`. -/
def ofSizeValue [Inhabited α] (size : Nat) (value : α) : Except Fault (SimpleVector α) := do
  let buf ← fillRange size 0 (ArrayPtr.alloc size) value
  pure ⟨buf, size, size⟩

/-- `SimpleVector(const SimpleVector& other)`: the members are initialised
with a block of `other.size_` slots, `other.size_` and `other.capacity_`; the
body fills a second block of `other.size_` slots and swaps it in. -/
def copyCtor [Inhabited α] (other : SimpleVector α) : Except Fault (SimpleVector α) := do
  let tmp ← copyRange other.vector_ other.size_ 0 (ArrayPtr.alloc other.size_) 0
  pure { vector_ := tmp, size_ := other.size_, capacity_ := other.capacity_ }

/-- `SimpleVector(SimpleVector&& other)`: the new vector starts with a block of
`other.size_` slots and the counters of `other`, swaps blocks with `other`,
and `other.Clear()` runs. The result is the new vector and `other` after the
call. -/
def moveCtor [Inhabited α] (other : SimpleVector α) : SimpleVector α × SimpleVector α :=
  ({ vector_ := other.vector_, size_ := other.size_, capacity_ := other.capacity_ },
   Clear { other with vector_ := ArrayPtr.alloc other.size_ })

/-- `SimpleVector(ReserveProxyObj capacity_to_reserve)`: `Reserve` called on
the default-initialised members. -/
def reserveCtor [Inhabited α] (capacity_to_reserve : Nat) : Except Fault (SimpleVector α) :=
  SimpleVector.Reserve empty capacity_to_reserve

/-- `void swap(SimpleVector& other) noexcept`: the pair is `*this` and
`other` after the call. -/
def swap (self other : SimpleVector α) : SimpleVector α × SimpleVector α :=
  (other, self)

/-- `SimpleVector& operator=(const SimpleVector& rhs)`; `rhs = none` stands for
`this == &rhs`. Otherwise `tmp(rhs)` is copy-constructed and swapped in. -/
def assign [Inhabited α] (self : SimpleVector α) :
    Option (SimpleVector α) → Except Fault (SimpleVector α)
  | none => pure self
  | some rhs => do
      let tmp ← copyCtor rhs
      pure (swap self tmp).1

/-- Assignment through the reference that `operator[]` returns:
`v[index] = value`. -/
def store (v : SimpleVector α) (index : Nat) (value : α) : Except Fault (SimpleVector α) := do
  let buf ← v.vector_.write index value
  pure { v with vector_ := buf }

/-- A run of `PushBack` calls, one per value, in order. -/
def pushAll [Inhabited α] : SimpleVector α → List α → Except Fault (SimpleVector α)
  | v, [] => pure v
  | v, x :: xs => do
      let v1 ← PushBack v x
      pushAll v1 xs

end SimpleVector

open SimpleVector

/-- `operator==`: `std::equal(lhs.begin(), lhs.end(), rhs.begin(), rhs.end())`,
which compares the two lengths first. -/
def equal [BEq α] (lhs rhs : SimpleVector α) : Except Fault Bool :=
  if lhs.size_ ≠ rhs.size_ then .ok false
  else equalLoop lhs.vector_ rhs.vector_ lhs.size_ 0

/-- `operator!=`: `!(lhs == rhs)`. -/
def notEqual [BEq α] (lhs rhs : SimpleVector α) : Except Fault Bool := do
  let r ← equal lhs rhs
  pure (!r)

/-- `operator<`:
`std::lexicographical_compare(lhs.begin(), lhs.end(), rhs.begin(), rhs.end())`. -/
def less [LT α] [DecidableRel (fun x y : α => x < y)] (lhs rhs : SimpleVector α) :
    Except Fault Bool :=
  lexLoop lhs.vector_ rhs.vector_ lhs.size_ rhs.size_ (min lhs.size_ rhs.size_) 0

/-- `operator<=`: `!(rhs < lhs)`. -/
def lessEq [LT α] [DecidableRel (fun x y : α => x < y)] (lhs rhs : SimpleVector α) :
    Except Fault Bool := do
  let r ← less rhs lhs
  pure (!r)

/-- `operator>`: `rhs < lhs`. -/
def greater [LT α] [DecidableRel (fun x y : α => x < y)] (lhs rhs : SimpleVector α) :
    Except Fault Bool :=
  less rhs lhs

/-- `operator>=`: `!(lhs < rhs)`. -/
def greaterEq [LT α] [DecidableRel (fun x y : α => x < y)] (lhs rhs : SimpleVector α) :
    Except Fault Bool := do
  let r ← less lhs rhs
  pure (!r)

/-- The vectors a program can hold: what the constructors return and what the
operations return from such vectors when they return at all. An operation
called outside of its precondition, or one that leaves its block, returns no
vector. -/
inductive Reachable [Inhabited α] [MovedFrom α] : SimpleVector α → Prop where
  | empty : Reachable SimpleVector.empty
  | ofSize (n : Nat) : Reachable (SimpleVector.ofSize n)
  | ofSizeValue (n : Nat) (x : α) (w : SimpleVector α) :
      SimpleVector.ofSizeValue n x = .ok w → Reachable w
  | ofList (init : List α) (w : SimpleVector α) :
      SimpleVector.ofList init = .ok w → Reachable w
  | copyCtor (v w : SimpleVector α) :
      Reachable v → SimpleVector.copyCtor v = .ok w → Reachable w
  | moveCtorNew (v : SimpleVector α) : Reachable v → Reachable (SimpleVector.moveCtor v).1
  | moveCtorOld (v : SimpleVector α) : Reachable v → Reachable (SimpleVector.moveCtor v).2
  | reserveCtor (n : Nat) (w : SimpleVector α) :
      SimpleVector.reserveCtor n = .ok w → Reachable w
  | assign (v : SimpleVector α) (rhs : Option (SimpleVector α)) (w : SimpleVector α) :
      Reachable v → (∀ r, rhs = some r → Reachable r) →
      SimpleVector.assign v rhs = .ok w → Reachable w
  | Reserve (v : SimpleVector α) (n : Nat) (w : SimpleVector α) :
      Reachable v → SimpleVector.Reserve v n = .ok w → Reachable w
  | PushBack (v : SimpleVector α) (x : α) (w : SimpleVector α) :
      Reachable v → SimpleVector.PushBack v x = .ok w → Reachable w
  | Insert (v : SimpleVector α) (p : Nat) (x : α) (w : SimpleVector α) (q : Nat) :
      Reachable v → SimpleVector.Insert v p x = .ok (w, q) → Reachable w
  | InsertRef (v : SimpleVector α) (p : Nat) (x : ValueRef α) (w : SimpleVector α) (q : Nat) :
      Reachable v → SimpleVector.InsertRef v p x = .ok (w, q) → Reachable w
  | PopBack (v w : SimpleVector α) :
      Reachable v → SimpleVector.PopBack v = .ok w → Reachable w
  | Erase (v : SimpleVector α) (p : Nat) (w : SimpleVector α) (q : Nat) :
      Reachable v → SimpleVector.Erase v p = .ok (w, q) → Reachable w
  | Clear (v : SimpleVector α) : Reachable v → Reachable (SimpleVector.Clear v)
  | Resize (v : SimpleVector α) (n : Nat) (w : SimpleVector α) :
      Reachable v → SimpleVector.Resize v n = .ok w → Reachable w
  | store (v : SimpleVector α) (i : Nat) (x : α) (w : SimpleVector α) :
      Reachable v → i < v.size_ → SimpleVector.store v i x = .ok w → Reachable w
  | swapSelf (v u : SimpleVector α) :
      Reachable v → Reachable u → Reachable (SimpleVector.swap v u).1
  | swapOther (v u : SimpleVector α) :
      Reachable v → Reachable u → Reachable (SimpleVector.swap v u).2

/-! ### Buffer accesses -/

theorem ArrayPtr.read_of_lt (a : ArrayPtr α) (i : Nat) (h : i < a.raw.length) :
    a.read i = .ok (a.raw.get ⟨i, h⟩) := by
  simp [ArrayPtr.read, List.getElem?_eq_getElem h]

theorem ArrayPtr.read_of_le (a : ArrayPtr α) (i : Nat) (h : a.raw.length ≤ i) :
    a.read i = .error .outOfBounds := by
  simp [ArrayPtr.read, List.getElem?_eq_none h]

theorem ArrayPtr.write_of_lt (a : ArrayPtr α) (i : Nat) (x : α) (h : i < a.raw.length) :
    a.write i x = .ok ⟨a.raw.set i x⟩ := by
  simp [ArrayPtr.write, h]

theorem ArrayPtr.write_of_le (a : ArrayPtr α) (i : Nat) (x : α) (h : a.raw.length ≤ i) :
    a.write i x = .error .outOfBounds := by
  simp [ArrayPtr.write, Nat.not_lt.mpr h]

theorem bind_ok {β γ : Type} (x : β) (f : β → Except Fault γ) :
    ((Except.ok x : Except Fault β) >>= f) = f x := rfl

theorem bind_error {β γ : Type} (e : Fault) (f : β → Except Fault γ) :
    ((Except.error e : Except Fault β) >>= f) = .error e := rfl

/-! ### List facts used by the loops -/

theorem take_succ_set (l : List α) (i : Nat) (x : α) (h : i < l.length) :
    (l.set i x).take (i + 1) = l.take i ++ [x] := by
  induction l generalizing i with
  | nil => simp at h
  | cons a l ih =>
    cases i with
    | zero => simp
    | succ i =>
      simp only [List.length_cons, Nat.add_lt_add_iff_right] at h
      simp [ih i h]

theorem take_succ_drop (l : List α) (p n : Nat) (h : p + n < l.length) :
    (l.drop p).take (n + 1) = (l.drop p).take n ++ [l.get ⟨p + n, h⟩] := by
  rw [List.take_succ]
  congr 1
  rw [List.getElem?_drop, List.getElem?_eq_getElem h]
  rfl

theorem take_set_of_le (l : List α) (m i : Nat) (x : α) (h : m ≤ i) :
    (l.set i x).take m = l.take m := by
  induction l generalizing m i with
  | nil => simp
  | cons a l ih =>
    cases m with
    | zero => simp
    | succ m =>
      cases i with
      | zero => omega
      | succ i => simp [ih m i (by omega)]

theorem drop_at_set (l : List α) (i : Nat) (x : α) (h : i < l.length) :
    (l.set i x).drop i = x :: l.drop (i + 1) := by
  have hl : i < (l.set i x).length := by simpa using h
  rw [List.drop_eq_getElem_cons hl, List.drop_set_of_lt _ _ (Nat.lt_succ_self i)]
  simp

/-! ### What the loops compute -/

theorem copyRange_eq (src : ArrayPtr α) (n first : Nat) (dst : ArrayPtr α) (d : Nat)
    (hs : first + n ≤ src.raw.length) (hd : d + n ≤ dst.raw.length) :
    copyRange src n first dst d
      = .ok ⟨dst.raw.take d ++ (src.raw.drop first).take n ++ dst.raw.drop (d + n)⟩ := by
  induction n generalizing first dst d with
  | zero => simp [copyRange]
  | succ n ih =>
    have h1 : first < src.raw.length := by omega
    have h2 : d < dst.raw.length := by omega
    rw [copyRange, ArrayPtr.read_of_lt _ _ h1, bind_ok, ArrayPtr.write_of_lt _ _ _ h2, bind_ok,
      ih (first + 1) _ (d + 1) (by omega) (by simp; omega)]
    congr 2
    simp only
    have e : d + 1 + n = d + (n + 1) := by omega
    rw [take_succ_set _ _ _ h2, List.drop_set_of_lt _ _ (by omega),
      List.drop_eq_getElem_cons h1, List.take_succ_cons, e]
    simp only [List.get_eq_getElem, List.append_assoc, List.singleton_append, List.cons_append,
      List.nil_append]

theorem moveWithin_spec [MovedFrom α] (n : Nat) (buf : ArrayPtr α) (d : Nat)
    (h : d + n + 1 ≤ buf.raw.length) :
    ∃ r, moveWithin n (d + 1) buf d = .ok r ∧
      r.raw.length = buf.raw.length ∧
      r.raw.take (d + n) = buf.raw.take d ++ (buf.raw.drop (d + 1)).take n ∧
      r.raw.drop (d + n + 1) = buf.raw.drop (d + n + 1) ∧
      (0 < n → r.raw[d + n]? = (buf.raw[d + n]?).map MovedFrom.movedFrom) := by
  induction n generalizing buf d with
  | zero => exact ⟨buf, rfl, rfl, by simp, rfl, fun h0 => absurd h0 (Nat.lt_irrefl 0)⟩
  | succ n ih =>
    have h1 : d + 1 < buf.raw.length := by omega
    have h2 : d < buf.raw.length := by omega
    have h3 : d + 1 < (buf.raw.set d (buf.raw.get ⟨d + 1, h1⟩)).length := by
      simpa using h1
    obtain ⟨r, hr, hlen, htake, hdrop, hlast⟩ :=
      ih ⟨(buf.raw.set d (buf.raw.get ⟨d + 1, h1⟩)).set (d + 1)
        (MovedFrom.movedFrom (buf.raw.get ⟨d + 1, h1⟩))⟩ (d + 1) (by simp; omega)
    refine ⟨r, ?_, ?_, ?_, ?_, fun _ => ?_⟩
    · rw [moveWithin, ArrayPtr.read_of_lt _ _ h1, bind_ok, ArrayPtr.write_of_lt _ _ _ h2, bind_ok,
        ArrayPtr.write_of_lt _ _ _ h3, bind_ok]
      exact hr
    · simpa using hlen
    · have e : d + (n + 1) = d + 1 + n := by omega
      rw [e, htake]
      simp only
      rw [take_set_of_le _ _ _ _ (Nat.le_refl _), take_succ_set _ _ _ h2,
        List.drop_set_of_lt _ _ (by omega), List.drop_set_of_lt _ _ (by omega),
        List.drop_eq_getElem_cons h1, List.take_succ_cons]
      simp only [List.get_eq_getElem, List.append_assoc, List.singleton_append]
    · have e : d + (n + 1) + 1 = d + 1 + n + 1 := by omega
      rw [e, hdrop]
      simp only
      rw [List.drop_set_of_lt _ _ (by omega), List.drop_set_of_lt _ _ (by omega)]
    · have e : d + (n + 1) = d + 1 + n := by omega
      rw [e]
      rcases Nat.eq_zero_or_pos n with h0 | hpos
      · subst h0
        cases hr
        simp only [Nat.add_zero]
        rw [List.getElem?_set_self (by simpa using h1), List.getElem?_eq_getElem h1]
        rfl
      · rw [hlast hpos]
        simp only
        rw [List.getElem?_set_ne (by omega), List.getElem?_set_ne (by omega)]

theorem shiftRight_eq (n p : Nat) (buf : ArrayPtr α) (h : p + n < buf.raw.length) :
    shiftRight n (p + n) buf
      = .ok ⟨buf.raw.take (p + 1) ++ (buf.raw.drop p).take n ++ buf.raw.drop (p + n + 1)⟩ := by
  induction n generalizing buf with
  | zero =>
    simp only [shiftRight, Nat.add_zero, List.take_zero, List.append_nil, List.take_append_drop]
  | succ n ih =>
    have h1 : p + n < buf.raw.length := by omega
    have e1 : p + (n + 1) - 1 = p + n := by omega
    have hlen : p + n < (buf.raw.set (p + (n + 1)) (buf.raw.get ⟨p + n, h1⟩)).length := by
      simpa using h1
    rw [shiftRight, e1, ArrayPtr.read_of_lt _ _ h1, bind_ok, ArrayPtr.write_of_lt _ _ _ h, bind_ok,
      ih ⟨_⟩ hlen]
    congr 2
    simp only
    have e2 : p + n + 1 = p + (n + 1) := by omega
    have t1 : (buf.raw.set (p + (n + 1)) (buf.raw.get ⟨p + n, h1⟩)).take (p + 1)
        = buf.raw.take (p + 1) := take_set_of_le _ _ _ _ (by omega)
    have t2 : ((buf.raw.set (p + (n + 1)) (buf.raw.get ⟨p + n, h1⟩)).drop p).take n
        = (buf.raw.drop p).take n := by
      rw [List.take_drop, List.take_drop, take_set_of_le _ _ _ _ (by omega)]
    rw [t1, t2, e2, drop_at_set _ _ _ h, take_succ_drop _ _ _ h1]
    simp only [List.append_assoc, List.singleton_append]

theorem fillDown_eq [Inhabited α] (n p : Nat) (buf : ArrayPtr α) (h : p + n < buf.raw.length) :
    fillDown n (p + n) buf
      = .ok ⟨buf.raw.take (p + 1) ++ List.replicate n default ++ buf.raw.drop (p + n + 1)⟩ := by
  induction n generalizing buf with
  | zero =>
    simp only [fillDown, Nat.add_zero, List.replicate_zero, List.append_nil, List.take_append_drop]
  | succ n ih =>
    have h1 : p + n < (buf.raw.set (p + (n + 1)) (default : α)).length := by
      simp only [List.length_set]; omega
    have e1 : p + (n + 1) - 1 = p + n := by omega
    rw [fillDown, ArrayPtr.write_of_lt _ _ _ h, bind_ok, e1, ih ⟨_⟩ h1]
    congr 2
    simp only
    have e2 : p + n + 1 = p + (n + 1) := by omega
    rw [take_set_of_le _ _ _ _ (by omega), e2, drop_at_set _ _ _ h, List.replicate_succ']
    simp only [List.append_assoc, List.singleton_append]

/-- Copying the live range into a fresh block of `m` slots. -/
theorem copyRange_alloc [Inhabited α] (v : SimpleVector α) (m : Nat)
    (hN : v.size_ ≤ v.vector_.slots) (hm : v.size_ ≤ m) :
    copyRange v.vector_ v.size_ 0 (ArrayPtr.alloc m) 0
      = .ok ⟨live v ++ List.replicate (m - v.size_) default⟩ := by
  rw [copyRange_eq _ _ _ _ _ (by simpa [ArrayPtr.slots] using hN)
    (by simpa [ArrayPtr.alloc] using hm)]
  simp [live, ArrayPtr.alloc]

theorem length_live (v : SimpleVector α) (hN : v.size_ ≤ v.vector_.slots) :
    (live v).length = v.size_ := by
  simp only [live, List.length_take]
  exact Nat.min_eq_left hN

/-! ### PushBack -/

theorem PushBack_of_spare [Inhabited α] (v : SimpleVector α) (item : α)
    (h : v.size_ < v.capacity_) (hN : v.size_ < v.vector_.slots) :
    PushBack v item
      = .ok ⟨⟨v.vector_.raw.set v.size_ item⟩, v.size_ + 1, v.capacity_⟩ := by
  rw [PushBack, if_pos h, ArrayPtr.write_of_lt _ _ _ hN]
  rfl

theorem PushBack_of_full [Inhabited α] (v : SimpleVector α) (item : α)
    (h : v.size_ = v.capacity_) (hN : v.size_ ≤ v.vector_.slots) :
    PushBack v item
      = .ok ⟨⟨live v ++ item :: List.replicate
                ((if v.capacity_ = 0 then 1 else v.capacity_ * 2) - v.size_ - 1) default⟩,
             v.size_ + 1, if v.capacity_ = 0 then 1 else v.capacity_ * 2⟩ := by
  have hm : v.size_ < (if v.capacity_ = 0 then 1 else v.capacity_ * 2) := by
    split <;> omega
  have hl := length_live v hN
  rw [PushBack, if_neg (by omega)]
  simp only [ofSize]
  rw [copyRange_alloc v _ hN (by omega), bind_ok,
    ArrayPtr.write_of_lt _ _ _ (by simp only [List.length_append, List.length_replicate]; omega),
    bind_ok]
  congr 3
  rw [List.set_append_right _ _ (by omega), hl, Nat.sub_self]
  obtain ⟨k, hk⟩ : ∃ k, (if v.capacity_ = 0 then 1 else v.capacity_ * 2) - v.size_ = k + 1 :=
    ⟨_, (Nat.succ_pred_eq_of_pos (by omega)).symm⟩
  rw [hk, List.replicate_succ, List.set_cons_zero, Nat.add_sub_cancel]

/-! ### Insert -/

theorem Insert_of_spare [Inhabited α] (v : SimpleVector α) (index : Nat) (value : α)
    (hi : index ≤ v.size_) (h : v.size_ ≠ v.capacity_) (hN : v.size_ < v.vector_.slots) :
    Insert v index value
      = .ok (⟨⟨v.vector_.raw.take index ++ value ::
                (v.vector_.raw.drop index).take (v.size_ - index)
                ++ v.vector_.raw.drop (v.size_ + 1)⟩, v.size_ + 1, v.capacity_⟩, index) := by
  have hN1 : v.size_ < v.vector_.raw.length := hN
  have e : index + (v.size_ - index) = v.size_ := by omega
  have hsh := shiftRight_eq (v.size_ - index) index v.vector_ (by omega)
  rw [e] at hsh
  have hix : index < v.vector_.raw.length := by omega
  rw [SimpleVector.Insert, if_pos hi, if_neg h]
  simp only [pure, Except.pure, bind_ok]
  rw [hsh, bind_ok, ArrayPtr.write_of_lt _ _ _
    (by simp only [List.length_append, List.length_take]; omega), bind_ok]
  congr 4
  have hl : (v.vector_.raw.take index).length = index := by
    simp only [List.length_take]; omega
  rw [List.take_succ, List.getElem?_eq_getElem hix, Option.toList_some, List.append_assoc,
    List.append_assoc, List.set_append_right _ _ (by omega), hl, Nat.sub_self]
  simp only [List.singleton_append, List.set_cons_zero, List.cons_append, List.append_assoc,
    List.nil_append]

theorem Insert_of_empty [Inhabited α] (v : SimpleVector α) (value : α)
    (hs : v.size_ = 0) (hc : v.capacity_ = 0) :
    Insert v 0 value = .ok (⟨⟨[value]⟩, 1, 1⟩, 0) := by
  rw [SimpleVector.Insert, if_pos (Nat.zero_le _), if_pos (by omega), if_neg (by omega), hs]
  rfl

/-- Every fault of the copy loop is an access outside of a block, and the
loop keeps the number of slots of its destination. -/
theorem copyRange_cases (src : ArrayPtr α) (n first : Nat) (dst : ArrayPtr α) (d : Nat) :
    copyRange src n first dst d = .error .outOfBounds ∨
      ∃ r, copyRange src n first dst d = .ok r ∧ r.raw.length = dst.raw.length := by
  induction n generalizing first dst d with
  | zero => exact Or.inr ⟨dst, rfl, rfl⟩
  | succ n ih =>
    rw [copyRange]
    rcases Nat.lt_or_ge first src.raw.length with h1 | h1
    · rw [ArrayPtr.read_of_lt _ _ h1, bind_ok]
      rcases Nat.lt_or_ge d dst.raw.length with h2 | h2
      · rw [ArrayPtr.write_of_lt _ _ _ h2, bind_ok]
        rcases ih (first + 1) ⟨dst.raw.set d (src.raw.get ⟨first, h1⟩)⟩ (d + 1) with h | ⟨r, h, hr⟩
        · exact Or.inl h
        · exact Or.inr ⟨r, h, by simpa using hr⟩
      · rw [ArrayPtr.write_of_le _ _ _ h2]
        exact Or.inl rfl
    · rw [ArrayPtr.read_of_le _ _ h1]
      exact Or.inl rfl

/-- The write that follows the reallocation of a full, non-empty vector lies
outside of the new block, whatever the position. -/
theorem shift_then_write_full (buf : ArrayPtr α) (size index : Nat) (value : α)
    (hi : index ≤ size) (hlen : buf.raw.length = size) :
    (shiftRight (size - index) size buf >>= fun b => b.write index value)
      = .error .outOfBounds := by
  rcases Nat.lt_or_ge index size with h | h
  · obtain ⟨k, hk⟩ : ∃ k, size - index = k + 1 := ⟨size - index - 1, by omega⟩
    rw [hk, shiftRight, ArrayPtr.read_of_lt _ _ (by omega : size - 1 < buf.raw.length), bind_ok,
      ArrayPtr.write_of_le _ _ _ (by omega)]
    rfl
  · have e : index = size := by omega
    rw [e, Nat.sub_self, shiftRight, bind_ok, ArrayPtr.write_of_le _ _ _ (by omega)]

theorem Insert_of_full [Inhabited α] (v : SimpleVector α) (index : Nat) (value : α)
    (hi : index ≤ v.size_) (h : v.size_ = v.capacity_) (h0 : v.size_ ≠ 0) :
    Insert v index value = .error .outOfBounds := by
  rw [SimpleVector.Insert, if_pos hi, if_pos h, if_pos h0]
  rcases copyRange_cases v.vector_ v.size_ 0 (ArrayPtr.alloc v.size_) 0 with hc | ⟨r, hc, hr⟩
  · rw [hc]
    rfl
  · have hlen : r.raw.length = v.size_ := by simpa [ArrayPtr.alloc] using hr
    have hw := shift_then_write_full r v.size_ index value hi hlen
    rw [hc]
    simp only [pure, Except.pure, bind_ok]
    cases hsh : shiftRight (v.size_ - index) v.size_ r with
    | error e =>
      rw [hsh, bind_error] at hw
      rw [bind_error, Except.error.inj hw]
    | ok b =>
      rw [hsh, bind_ok] at hw
      rw [bind_ok, hw]
      rfl

/-! ### Erase, Reserve, Resize -/

theorem Erase_eq [MovedFrom α] (v : SimpleVector α) (index : Nat)
    (hi : index < v.size_) (hN : v.size_ ≤ v.vector_.slots) :
    ∃ w, Erase v index = .ok (w, index) ∧
      w.size_ = v.size_ - 1 ∧ w.capacity_ = v.capacity_ ∧
      w.vector_.slots = v.vector_.slots ∧
      w.vector_.raw.take (v.size_ - 1) = v.vector_.raw.take index
        ++ (v.vector_.raw.drop (index + 1)).take (v.size_ - (index + 1)) := by
  have hN1 : v.size_ ≤ v.vector_.raw.length := hN
  obtain ⟨r, hr, hlen, htake, _, _⟩ :=
    moveWithin_spec (v.size_ - (index + 1)) v.vector_ index (by omega)
  have e : index + (v.size_ - (index + 1)) = v.size_ - 1 := by omega
  rw [e] at htake
  have hne : v.IsEmpty = false := by
    simp only [SimpleVector.IsEmpty, ite_eq_right_iff, Bool.true_eq_false, imp_false]
    omega
  refine ⟨⟨r, v.size_ - 1, v.capacity_⟩, ?_, rfl, rfl, hlen, htake⟩
  rw [Erase, hne, if_neg (by simp), if_pos (by omega), hr]
  rfl

theorem Reserve_of_gt [Inhabited α] (v : SimpleVector α) (n : Nat)
    (h : v.capacity_ < n) (hs : v.size_ ≤ v.capacity_) (hN : v.size_ ≤ v.vector_.slots) :
    SimpleVector.Reserve v n
      = .ok ⟨⟨live v ++ List.replicate (n - v.size_) default⟩, v.size_, n⟩ := by
  rw [SimpleVector.Reserve, if_pos h, copyRange_alloc v n hN (by omega)]
  rfl

theorem Reserve_of_le [Inhabited α] (v : SimpleVector α) (n : Nat) (h : n ≤ v.capacity_) :
    SimpleVector.Reserve v n = .ok v := by
  rw [SimpleVector.Reserve, if_neg (by omega)]
  rfl

theorem Resize_of_le [Inhabited α] (v : SimpleVector α) (n : Nat) (h : n ≤ v.size_) :
    Resize v n = .ok { v with size_ := n } := by
  rw [Resize, if_pos h]
  rfl

theorem Resize_of_between [Inhabited α] (v : SimpleVector α) (n : Nat)
    (h1 : v.size_ < n) (h2 : n < v.capacity_) (hN : n < v.vector_.slots) :
    Resize v n
      = .ok ⟨⟨v.vector_.raw.take (v.size_ + 1) ++ List.replicate (n - v.size_) default
                ++ v.vector_.raw.drop (n + 1)⟩, n, v.capacity_⟩ := by
  have e : v.size_ + (n - v.size_) = n := by omega
  have hf := fillDown_eq (n - v.size_) v.size_ v.vector_ (by rw [e]; exact hN)
  rw [e] at hf
  rw [Resize, if_neg (by omega), if_pos ⟨h1, h2⟩, hf]
  rfl

theorem Resize_of_ge_capacity [Inhabited α] (v : SimpleVector α) (n : Nat)
    (h1 : v.size_ < n) (h2 : v.capacity_ ≤ n) (hN : v.size_ ≤ v.vector_.slots) :
    Resize v n
      = .ok ⟨⟨live v ++ List.replicate (n - v.size_) default⟩, n, n * 2⟩ := by
  rw [Resize, if_neg (by omega), if_neg (by omega), copyRange_alloc v n hN (by omega)]
  rfl

/-! ### One PushBack step and runs of PushBack -/

/-- The capacity after a `PushBack`, as the source computes it. -/
theorem PushBack_step [Inhabited α] (v : SimpleVector α) (item : α)
    (hs : v.size_ ≤ v.capacity_) (hN : v.capacity_ ≤ v.vector_.slots) :
    ∃ w, PushBack v item = .ok w ∧ w.size_ = v.size_ + 1 ∧ live w = live v ++ [item] ∧
      w.capacity_ ≤ w.vector_.slots ∧
      w.capacity_ = (if v.size_ < v.capacity_ then v.capacity_
                     else if v.capacity_ = 0 then 1 else v.capacity_ * 2) := by
  have hN1 : v.capacity_ ≤ v.vector_.raw.length := hN
  rcases Nat.lt_or_ge v.size_ v.capacity_ with h | h
  · refine ⟨_, PushBack_of_spare v item h (Nat.lt_of_lt_of_le h hN), rfl, ?_, ?_, ?_⟩
    · exact take_succ_set _ _ _ (by omega)
    · simpa [ArrayPtr.slots] using hN1
    · simp [h]
  · have he : v.size_ = v.capacity_ := by omega
    have hsN : v.size_ ≤ v.vector_.slots := by simp only [ArrayPtr.slots]; omega
    have hl := length_live v hsN
    refine ⟨_, PushBack_of_full v item he hsN, rfl, ?_, ?_, ?_⟩
    · simp only [live]
      rw [List.take_append_eq_append_take]
      simp only [List.length_take]
      have e1 : v.size_ + 1 - min v.size_ v.vector_.raw.length = 1 := by
        simp only [ArrayPtr.slots] at hsN; omega
      rw [e1, List.take_of_length_le (by simp only [List.length_take]; omega)]
      simp
    · simp only [ArrayPtr.slots, List.length_append, List.length_cons, List.length_replicate, hl]
      split <;> omega
    · simp [Nat.not_lt.mpr h]

theorem pushAll_snoc [Inhabited α] (v : SimpleVector α) (xs : List α) (x : α) :
    pushAll v (xs ++ [x]) = (pushAll v xs >>= fun w => PushBack w x) := by
  induction xs generalizing v with
  | nil =>
    have e : ((pure v : Except Fault (SimpleVector α)) >>= fun w => PushBack w x)
        = PushBack v x := rfl
    simp only [List.nil_append, pushAll]
    rw [e]
    cases PushBack v x <;> rfl
  | cons y ys ih =>
    simp only [List.cons_append, pushAll]
    cases PushBack v y with
    | error e => rfl
    | ok w => exact ih w

/-- Invariant of a run of `PushBack` from the empty vector. -/
theorem pushAll_empty_inv [Inhabited α] (vs : List α) :
    ∃ w, pushAll (empty : SimpleVector α) vs = .ok w ∧ w.size_ = vs.length ∧ live w = vs ∧
      w.size_ ≤ w.capacity_ ∧ w.capacity_ ≤ w.vector_.slots ∧
      (vs.length = 0 → w.capacity_ = 0) ∧
      (0 < vs.length →
        ∃ k, w.capacity_ = 2 ^ k ∧ vs.length ≤ 2 ^ k ∧ ∀ j, vs.length ≤ 2 ^ j → k ≤ j) := by
  induction vs using List.reverseRecOn with
  | nil =>
    exact ⟨empty, rfl, rfl, rfl, Nat.le_refl _, Nat.le_refl _, fun _ => rfl,
      fun h => absurd h (Nat.lt_irrefl 0)⟩
  | append_singleton xs x ih =>
    obtain ⟨w, hw, hsz, hlive, hsc, hcN, hzero, hpow⟩ := ih
    obtain ⟨w1, hp, hsz1, hlive1, hcN1, hcap1⟩ := PushBack_step w x hsc hcN
    refine ⟨w1, ?_, ?_, ?_, ?_, hcN1, ?_, ?_⟩
    · rw [pushAll_snoc, hw, bind_ok, hp]
    · simp [hsz1, hsz]
    · rw [hlive1, hlive]
    · rw [hcap1, hsz1]
      split
      · omega
      · split <;> omega
    · intro h
      simp at h
    · intro _
      simp only [List.length_append, List.length_singleton]
      rcases Nat.eq_zero_or_pos xs.length with h0 | hpos
      · have hc0 := hzero h0
        refine ⟨0, ?_, by omega, fun j _ => Nat.zero_le j⟩
        rw [hcap1, hc0]
        simp
      · obtain ⟨k, hk, hle, hmin⟩ := hpow hpos
        rcases Nat.lt_or_ge w.size_ w.capacity_ with hlt | hge
        · refine ⟨k, ?_, by omega, fun j hj => hmin j (by omega)⟩
          rw [hcap1, if_pos hlt, hk]
        · have hfull : xs.length = 2 ^ k := by omega
          have hcpos : w.capacity_ ≠ 0 := by omega
          refine ⟨k + 1, ?_, by rw [Nat.pow_succ]; omega, fun j hj => ?_⟩
          · rw [hcap1, if_neg (by omega), if_neg hcpos, hk, Nat.pow_succ]
          · have hlt : 2 ^ k < 2 ^ j := by omega
            exact (Nat.pow_lt_pow_iff_right (by decide)).mp hlt

/-- The reallocating branch of `Resize`: taken when `size < newSize` and
`capacity <= newSize`. -/
theorem Resize_realloc [Inhabited α] (v : SimpleVector α) (n : Nat)
    (h1 : v.size_ < n) (h2 : v.capacity_ ≤ n) (hN : v.size_ ≤ v.vector_.slots) :
    ∃ w, Resize v n = .ok w ∧
      w.GetSize = n ∧ w.GetCapacity = 2 * n ∧
      (live w).take v.size_ = live v ∧
      live w = live v ++ List.replicate (n - v.size_) default ∧
      (∀ i, v.size_ ≤ i → i < n → (live w)[i]? = some default) := by
  have hl := length_live v hN
  have hlive : live (⟨⟨live v ++ List.replicate (n - v.size_) default⟩, n, n * 2⟩ :
      SimpleVector α) = live v ++ List.replicate (n - v.size_) default := by
    simp only [live]
    exact List.take_of_length_le (by
      simp only [List.length_append, List.length_take, List.length_replicate]; omega)
  refine ⟨_, Resize_of_ge_capacity v n h1 h2 hN, rfl, Nat.mul_comm _ _, ?_, hlive, ?_⟩
  · rw [hlive]
    exact List.take_left' hl
  · intro i hi1 hi2
    rw [hlive, List.getElem?_append_right (by omega), hl, List.getElem?_replicate,
      if_pos (by omega)]

/-- The fill branch of `Resize` (`size < newSize < capacity`) does not write
the slot at offset old size: the first new element of the live range is
whatever that slot held before the call. -/
theorem Resize_keeps_stale_slot [Inhabited α] (v : SimpleVector α) (n : Nat)
    (h1 : v.size_ < n) (h2 : n < v.capacity_) (hN : n < v.vector_.slots) :
    ∃ w, Resize v n = .ok w ∧ w.size_ = n ∧ w.capacity_ = v.capacity_ ∧
      (live w)[v.size_]? = v.vector_.raw[v.size_]? := by
  have hN1 : n < v.vector_.raw.length := hN
  refine ⟨_, Resize_of_between v n h1 h2 hN, rfl, rfl, ?_⟩
  simp only [live]
  rw [List.getElem?_take, if_pos h1, List.append_assoc,
    List.getElem?_append_left (by simp only [List.length_take]; omega),
    List.getElem?_take, if_pos (Nat.lt_succ_self _)]

/-- What `Erase` leaves behind, for an offset inside of the live range. -/
theorem Erase_live [MovedFrom α] (v : SimpleVector α) (p : Nat)
    (hp : p < v.size_) (hN : v.size_ ≤ v.vector_.slots) :
    ∃ w, Erase v p = .ok (w, p) ∧
      live w = (live v).take p ++ (live v).drop (p + 1) ∧
      live w = (live v).eraseIdx p ∧
      w.GetSize + 1 = v.GetSize ∧
      w.GetCapacity = v.GetCapacity ∧
      (live w)[p]? = (live v)[p + 1]? := by
  have hN1 : v.size_ ≤ v.vector_.raw.length := hN
  obtain ⟨w, hw, hsz, hcap, _, htake⟩ := Erase_eq v p hp hN
  have hlive : live w = (live v).take p ++ (live v).drop (p + 1) := by
    simp only [live]
    rw [hsz, htake, List.take_take, List.drop_take, Nat.min_eq_left (by omega)]
  refine ⟨w, hw, hlive, ?_, ?_, hcap, ?_⟩
  · rw [hlive, List.eraseIdx_eq_take_drop_succ]
  · simp only [GetSize]
    omega
  · have hl := length_live v hN
    rw [hlive, List.getElem?_append_right (by simp only [List.length_take]; omega)]
    have e : p - (List.take p (live v)).length = 0 := by
      simp only [List.length_take]; omega
    rw [e, List.getElem?_drop]

theorem ofList_eq [Inhabited α] (init : List α) :
    ofList init = .ok ⟨⟨init⟩, init.length, init.length⟩ := by
  rw [ofList, copyRange_eq _ _ _ _ _ (by simp) (by simp [ArrayPtr.alloc])]
  simp [ArrayPtr.alloc]

/-- With spare capacity `Insert` of a value that is no slot of the block puts
the value at its position and keeps capacity and block. -/
theorem Insert_with_spare [Inhabited α] (v : SimpleVector α) (p : Nat) (x : α)
    (hp : p ≤ v.size_) (hs : v.size_ < v.capacity_) (hN : v.capacity_ ≤ v.vector_.slots) :
    ∃ w, Insert v p x = .ok (w, p) ∧
      live w = (live v).take p ++ x :: (live v).drop p ∧
      w.size_ = v.size_ + 1 ∧ w.capacity_ = v.capacity_ ∧
      w.vector_.slots = v.vector_.slots := by
  have hN1 : v.capacity_ ≤ v.vector_.raw.length := hN
  refine ⟨_, Insert_of_spare v p x hp (by omega) (Nat.lt_of_lt_of_le hs hN), ?_, rfl, rfl, ?_⟩
  · simp only [live]
    rw [List.take_take, Nat.min_eq_left hp, List.drop_take]
    have e : v.vector_.raw.take p ++ x :: (v.vector_.raw.drop p).take (v.size_ - p)
          ++ v.vector_.raw.drop (v.size_ + 1)
        = (v.vector_.raw.take p ++ x :: (v.vector_.raw.drop p).take (v.size_ - p))
          ++ v.vector_.raw.drop (v.size_ + 1) := by
      simp only [List.append_assoc, List.cons_append]
    rw [e]
    exact List.take_left' (by
      simp only [List.length_append, List.length_cons, List.length_take, List.length_drop]
      omega)
  · simp only [ArrayPtr.slots, List.length_append, List.length_cons, List.length_take,
      List.length_drop]
    omega

/-- With spare capacity, and on the empty vector of capacity 0, `Insert` of a
value that is no slot of the block at the position `end()` is `PushBack`. -/
theorem Insert_end_eq_PushBack [Inhabited α] (v : SimpleVector α) (x : α)
    (hs : v.size_ < v.capacity_ ∨ (v.size_ = 0 ∧ v.capacity_ = 0))
    (hN : v.capacity_ ≤ v.vector_.slots) :
    ∃ w, PushBack v x = .ok w ∧ Insert v v.size_ x = .ok (w, v.size_) := by
  have hN1 : v.capacity_ ≤ v.vector_.raw.length := hN
  rcases hs with hs | ⟨h0, hc⟩
  · refine ⟨_, PushBack_of_spare v x hs (Nat.lt_of_lt_of_le hs hN), ?_⟩
    rw [Insert_of_spare v v.size_ x (Nat.le_refl _) (by omega) (Nat.lt_of_lt_of_le hs hN),
      List.set_eq_take_append_cons_drop, if_pos (by omega)]
    simp
  · refine ⟨_, PushBack_of_full v x (by omega) (by rw [h0]; exact Nat.zero_le _), ?_⟩
    have e := Insert_of_empty v x h0 hc
    simp only [live, h0, hc, List.take_zero, List.nil_append, if_pos, Nat.sub_self,
      List.replicate_zero, Nat.zero_add]
    exact e

/-- With spare capacity, `Insert` of a value that is no slot of the block at
`p`, followed by `Erase` at `p`, restores the live sequence and the size. -/
theorem Insert_then_Erase_with_spare [Inhabited α] [MovedFrom α] (v : SimpleVector α) (p : Nat) (x : α)
    (hp : p ≤ v.size_) (hs : v.size_ < v.capacity_) (hN : v.capacity_ ≤ v.vector_.slots) :
    ∃ w, (Insert v p x >>= fun r => Erase r.1 p) = .ok (w, p) ∧
      live w = live v ∧ w.size_ = v.size_ := by
  have hsN : v.size_ ≤ v.vector_.slots := by simp only [ArrayPtr.slots] at hN ⊢; omega
  have hl := length_live v hsN
  obtain ⟨w1, h1, hlive1, hsz1, hc1, hsl1⟩ := Insert_with_spare v p x hp hs hN
  obtain ⟨w2, h2, hlive2, _, hsz2, _⟩ := Erase_live w1 p (by omega) (by
    rw [hsl1, hsz1]; simp only [ArrayPtr.slots] at hN ⊢; omega)
  refine ⟨w2, ?_, ?_, ?_⟩
  · rw [h1, bind_ok, h2]
  · have hlp : ((live v).take p).length = p := by
      simp only [List.length_take]; omega
    have hd : List.drop (p + 1) (List.take p (live v) ++ x :: List.drop p (live v))
        = List.drop p (live v) := by
      have e : List.take p (live v) ++ x :: List.drop p (live v)
          = (List.take p (live v) ++ [x]) ++ List.drop p (live v) := by
        simp only [List.append_assoc, List.singleton_append]
      rw [e]
      exact List.drop_left' (by simp only [List.length_append, List.length_singleton, hlp])
    rw [hlive2, hlive1, List.take_left' hlp, hd]
    exact List.take_append_drop p (live v)
  · simp only [GetSize] at hsz2
    omega

/-- On a vector with `size <= capacity` whose block holds at least its
capacity, `PushBack` returns; it writes the item at offset old size, the size
grows by one, the elements live before are unchanged in order; a full vector
gets capacity 1 from capacity 0 and twice the capacity otherwise, and a vector
with spare capacity keeps its capacity. -/
theorem PushBack_contract [Inhabited α] (v : SimpleVector α) (item : α)
    (hs : v.size_ ≤ v.capacity_) (hN : v.capacity_ ≤ v.vector_.slots) :
    ∃ w, PushBack v item = .ok w ∧
      index w v.size_ = .ok item ∧
      w.GetSize = v.GetSize + 1 ∧
      live w = live v ++ [item] ∧
      (v.size_ = v.capacity_ →
        w.GetCapacity = if v.capacity_ = 0 then 1 else 2 * v.capacity_) ∧
      (v.size_ < v.capacity_ → w.GetCapacity = v.capacity_) := by
  obtain ⟨w, hp, hsz, hlive, hcN, hcap⟩ := PushBack_step v item hs hN
  have hsN : v.size_ ≤ v.vector_.slots := Nat.le_trans hs hN
  have hl := length_live v hsN
  refine ⟨w, hp, ?_, hsz, hlive, ?_, ?_⟩
  · have h1 : (live w)[v.size_]? = some item := by
      rw [hlive, List.getElem?_append_right (by omega), hl, Nat.sub_self]
      rfl
    simp only [live, List.getElem?_take, hsz] at h1
    simp only [index, ArrayPtr.read]
    rw [if_pos (Nat.lt_succ_self _)] at h1
    rw [h1]
  · intro he
    simp only [GetCapacity, hcap, if_neg (by omega : ¬ v.size_ < v.capacity_)]
    split
    · rfl
    · exact Nat.mul_comm _ _
  · intro hlt
    simp only [GetCapacity, hcap, if_pos hlt]

/-! ## The contract of the operations -/

/-- C1, evaluated on the code. The vector `{1}` built from an initializer list
is full (size 1, capacity 1, a block of 1 slot). `Insert` at offset 0 does not
produce `[5, 1]`: its growth branch allocates `size_` slots only, so the shift
`vector_[1] = vector_[0]` writes outside of the block. -/
theorem Insert_full_vector_out_of_bounds :
    (ofList [1] : Except Fault (SimpleVector Nat)) = .ok ⟨⟨[1]⟩, 1, 1⟩ ∧
    Insert (⟨⟨[1]⟩, 1, 1⟩ : SimpleVector Nat) 0 5 = .error .outOfBounds := by
  decide

/-- C2, evaluated on the code. From `{7, 8, 9}` (size 3, capacity 3, a block
of 3 slots), `Resize(0)` keeps the block and `Resize(2)`, within the capacity,
runs the fill loop from offset 2 down to offset 1: the slot at offset 0, the
first new element, keeps the stale 7, and the live sequence is `[7, 0]`, not
two default values. -/
theorem Resize_leaves_stale_element :
    (ofList [7, 8, 9] : Except Fault (SimpleVector Nat)) = .ok ⟨⟨[7, 8, 9]⟩, 3, 3⟩ ∧
    Resize (⟨⟨[7, 8, 9]⟩, 3, 3⟩ : SimpleVector Nat) 0 = .ok ⟨⟨[7, 8, 9]⟩, 0, 3⟩ ∧
    Resize (⟨⟨[7, 8, 9]⟩, 0, 3⟩ : SimpleVector Nat) 2 = .ok ⟨⟨[7, 0, 0]⟩, 2, 3⟩ ∧
    live (⟨⟨[7, 0, 0]⟩, 2, 3⟩ : SimpleVector Nat) = [7, 0] := by
  decide

/-- C3, evaluated on the code. On the full vector `{1}`, `PushBack(2)` returns
`[1, 2]` with capacity 2, while `Insert` of 2 at the end position writes
outside of the block it has just allocated. -/
theorem Insert_at_end_differs_from_PushBack :
    PushBack (⟨⟨[1]⟩, 1, 1⟩ : SimpleVector Nat) 2 = .ok ⟨⟨[1, 2]⟩, 2, 2⟩ ∧
    Insert (⟨⟨[1]⟩, 1, 1⟩ : SimpleVector Nat) 1 2 = .error .outOfBounds := by
  decide

/-- C4, evaluated on the code. On the full vector `{1, 2, 3}` the round trip
of `Insert` at offset 1 and `Erase` at offset 1 returns no vector: `Insert`
writes outside of its block. -/
theorem Insert_then_Erase_full_vector :
    (ofList [1, 2, 3] : Except Fault (SimpleVector Nat)) = .ok ⟨⟨[1, 2, 3]⟩, 3, 3⟩ ∧
    (Insert (⟨⟨[1, 2, 3]⟩, 3, 3⟩ : SimpleVector Nat) 1 10 >>= fun r => Erase r.1 1)
      = .error .outOfBounds := by
  decide

/-- C5. A run of `PushBack` calls from the default-constructed vector returns;
the size is the number of pushes, the live sequence is the pushed values in
order, the capacity is 0 after no push and the least power of two that is at
least the number of pushes otherwise, and one more push keeps the capacity or
takes it from 0 to 1 or from c to 2c, never down. -/
theorem PushBack_run_from_empty [Inhabited α] (vs : List α) :
    ∃ w, pushAll (empty : SimpleVector α) vs = .ok w ∧
      w.GetSize = vs.length ∧ live w = vs ∧
      (vs.length = 0 → w.GetCapacity = 0) ∧
      (0 < vs.length →
        ∃ k, w.GetCapacity = 2 ^ k ∧ vs.length ≤ 2 ^ k ∧
          ∀ j, vs.length ≤ 2 ^ j → 2 ^ k ≤ 2 ^ j) ∧
      (∀ x, ∃ w1, pushAll (empty : SimpleVector α) (vs ++ [x]) = .ok w1 ∧
        PushBack w x = .ok w1 ∧ w.GetCapacity ≤ w1.GetCapacity ∧
        (w1.GetCapacity = w.GetCapacity ∨ (w.GetCapacity = 0 ∧ w1.GetCapacity = 1) ∨
          w1.GetCapacity = 2 * w.GetCapacity)) := by
  obtain ⟨w, hw, hsz, hlive, hsc, hcN, hzero, hpow⟩ := pushAll_empty_inv vs
  refine ⟨w, hw, hsz, hlive, hzero, ?_, ?_⟩
  · intro hpos
    obtain ⟨k, hk, hle, hmin⟩ := hpow hpos
    exact ⟨k, hk, hle, fun j hj => Nat.pow_le_pow_right (by decide) (hmin j hj)⟩
  · intro x
    obtain ⟨w1, hp, _, _, _, hcap1⟩ := PushBack_step w x hsc hcN
    refine ⟨w1, ?_, hp, ?_, ?_⟩
    · rw [pushAll_snoc, hw, bind_ok, hp]
    · simp only [GetCapacity, hcap1]
      split
      · exact Nat.le_refl _
      · split <;> omega
    · simp only [GetCapacity, hcap1]
      split
      · exact Or.inl rfl
      · split
        · rename_i h0
          exact Or.inr (Or.inl ⟨h0, rfl⟩)
        · exact Or.inr (Or.inr (Nat.mul_comm _ _))

/-- C6, evaluated on the code. The copy of `[1, 2, 3]` with capacity 4 has
`size <= capacity`, but its block has 3 slots: the copy constructor allocates
`other.size_` slots and keeps `other.capacity_`. `PushBack(4)` on the copy
takes the branch `size_ < capacity_` and writes `vector_[3]`, outside of that
block, instead of appending 4. -/
theorem PushBack_on_copy_out_of_bounds :
    pushAll (empty : SimpleVector Nat) [1, 2, 3] = .ok ⟨⟨[1, 2, 3, 0]⟩, 3, 4⟩ ∧
    copyCtor (⟨⟨[1, 2, 3, 0]⟩, 3, 4⟩ : SimpleVector Nat) = .ok ⟨⟨[1, 2, 3]⟩, 3, 4⟩ ∧
    (⟨⟨[1, 2, 3]⟩, 3, 4⟩ : SimpleVector Nat).GetSize
      ≤ (⟨⟨[1, 2, 3]⟩, 3, 4⟩ : SimpleVector Nat).GetCapacity ∧
    PushBack (⟨⟨[1, 2, 3]⟩, 3, 4⟩ : SimpleVector Nat) 4 = .error .outOfBounds := by
  decide

/-- C7. On a vector whose live range lies in its block, `Erase` at an offset
`p < size` returns; the live sequence loses exactly the element at `p` (the
elements behind it move one place to the front, in order), the size drops by
one, the capacity is unchanged, and the returned iterator is at offset `p`,
where the former successor of the erased element now is. -/
theorem Erase_contract [MovedFrom α] (v : SimpleVector α) (p : Nat)
    (hp : p < v.size_) (hN : v.size_ ≤ v.vector_.slots) :
    ∃ w, Erase v p = .ok (w, p) ∧
      live w = (live v).take p ++ (live v).drop (p + 1) ∧
      live w = (live v).eraseIdx p ∧
      w.GetSize + 1 = v.GetSize ∧
      w.GetCapacity = v.GetCapacity ∧
      (live w)[p]? = (live v)[p + 1]? :=
  Erase_live v p hp hN

/-- Witness of C7: erasing offset 0 of `[1, 10, 2, 3]` gives `[10, 2, 3]`. -/
theorem Erase_contract_witness :
    (0 < (⟨⟨[1, 10, 2, 3]⟩, 4, 4⟩ : SimpleVector Nat).size_ ∧
      4 ≤ (⟨[1, 10, 2, 3]⟩ : ArrayPtr Nat).slots) ∧
    ∃ w, Erase (⟨⟨[1, 10, 2, 3]⟩, 4, 4⟩ : SimpleVector Nat) 0 = .ok (w, 0) ∧
      live w = [10, 2, 3] ∧ w.GetSize + 1 = 4 :=
  ⟨by decide, by
    obtain ⟨w, h1, h2, _, h4, _⟩ :=
      Erase_contract (⟨⟨[1, 10, 2, 3]⟩, 4, 4⟩ : SimpleVector Nat) 0 (by decide) (by decide)
    exact ⟨w, h1, h2, h4⟩⟩

/-- C8. On a vector whose live range lies in its block, `At(i)` fails with the
out-of-range error exactly when `i >= size`; for `i < size` it returns the
element at offset `i` of the live sequence, the very element `operator[]`
returns. `At` is a reader: it returns no new vector state. -/
theorem At_contract (v : SimpleVector α) (i : Nat) (hN : v.size_ ≤ v.vector_.slots) :
    (At v i = .error .outOfRange ↔ v.GetSize ≤ i) ∧
    (i < v.GetSize → ∃ x, (live v)[i]? = some x ∧ At v i = .ok x ∧ index v i = .ok x) := by
  have hN1 : v.size_ ≤ v.vector_.raw.length := hN
  constructor
  · constructor
    · intro h
      by_contra hlt
      have hi : i < v.vector_.raw.length := by simp only [GetSize] at hlt; omega
      rw [At, if_neg (by simpa [GetSize] using hlt), ArrayPtr.read_of_lt _ _ hi] at h
      cases h
    · intro h
      rw [At, if_pos (show i ≥ v.size_ from h)]
  · intro hlt
    have hlt1 : i < v.size_ := hlt
    have hi : i < v.vector_.raw.length := by omega
    refine ⟨v.vector_.raw.get ⟨i, hi⟩, ?_, ?_, ?_⟩
    · simp only [live, List.getElem?_take, if_pos hlt1, List.getElem?_eq_getElem hi,
        List.get_eq_getElem]
    · rw [At, if_neg (by omega), ArrayPtr.read_of_lt _ _ hi]
    · rw [index, ArrayPtr.read_of_lt _ _ hi]

/-- Witness of C8 on `[10, 2, 3]`: `At(5)` is out of range, `At(1)` is 2. -/
theorem At_contract_witness :
    (3 ≤ (⟨[10, 2, 3, 3]⟩ : ArrayPtr Nat).slots) ∧
    At (⟨⟨[10, 2, 3, 3]⟩, 3, 4⟩ : SimpleVector Nat) 5 = .error .outOfRange ∧
    ∃ x, (live (⟨⟨[10, 2, 3, 3]⟩, 3, 4⟩ : SimpleVector Nat))[1]? = some x ∧
      At (⟨⟨[10, 2, 3, 3]⟩, 3, 4⟩ : SimpleVector Nat) 1 = .ok x ∧
      index (⟨⟨[10, 2, 3, 3]⟩, 3, 4⟩ : SimpleVector Nat) 1 = .ok x :=
  ⟨by decide,
    (At_contract (⟨⟨[10, 2, 3, 3]⟩, 3, 4⟩ : SimpleVector Nat) 5 (by decide)).1.2 (by decide),
    (At_contract (⟨⟨[10, 2, 3, 3]⟩, 3, 4⟩ : SimpleVector Nat) 1 (by decide)).2 (by decide)⟩

/-- C9. On a vector with `size <= capacity` whose live range lies in its
block, `Reserve(n)` returns; size and live sequence are unchanged, the capacity
becomes the larger of the old capacity and `n`: exactly `n` when `n` is above
the old capacity, and the whole vector is unchanged when it is not. -/
theorem Reserve_contract [Inhabited α] (v : SimpleVector α) (n : Nat)
    (hs : v.size_ ≤ v.capacity_) (hN : v.size_ ≤ v.vector_.slots) :
    ∃ w, SimpleVector.Reserve v n = .ok w ∧
      w.GetSize = v.GetSize ∧ live w = live v ∧
      w.GetCapacity = max v.GetCapacity n ∧
      (v.GetCapacity < n → w.GetCapacity = n) ∧
      (n ≤ v.GetCapacity → w = v) ∧
      v.GetCapacity ≤ w.GetCapacity := by
  rcases Nat.lt_or_ge v.capacity_ n with h | h
  · refine ⟨_, Reserve_of_gt v n h hs hN, rfl, ?_, ?_, fun _ => rfl, ?_, ?_⟩
    · exact List.take_left' (length_live v hN)
    · simp only [GetCapacity]
      omega
    · intro h2
      simp only [GetCapacity] at h2
      omega
    · simp only [GetCapacity]
      omega
  · refine ⟨v, Reserve_of_le v n h, rfl, rfl, ?_, ?_, fun _ => rfl, Nat.le_refl _⟩
    · simp only [GetCapacity]
      omega
    · intro h2
      simp only [GetCapacity] at h2
      omega

/-- Witness of C9: reserving 5 slots on `[1, 2]` with capacity 3. -/
theorem Reserve_contract_witness :
    ((⟨⟨[1, 2, 0]⟩, 2, 3⟩ : SimpleVector Nat).size_ ≤ 3 ∧ 2 ≤ (⟨[1, 2, 0]⟩ : ArrayPtr Nat).slots) ∧
    ∃ w, SimpleVector.Reserve (⟨⟨[1, 2, 0]⟩, 2, 3⟩ : SimpleVector Nat) 5 = .ok w ∧
      w.GetSize = 2 ∧ live w = [1, 2] ∧ w.GetCapacity = 5 :=
  ⟨by decide, by
    obtain ⟨w, h1, h2, h3, _, h5, _⟩ :=
      Reserve_contract (⟨⟨[1, 2, 0]⟩, 2, 3⟩ : SimpleVector Nat) 5 (by decide) (by decide)
    exact ⟨w, h1, h2, h3, h5 (by decide)⟩⟩

/-- C10. On a vector with `size <= capacity < newSize` whose live range lies
in its block, `Resize(newSize)` returns; the size is `newSize`, the capacity is
exactly `2 * newSize`, the elements at offsets `[0, old size)` are unchanged in
order and every element at offsets `[old size, newSize)` is the default
value. -/
theorem Resize_beyond_capacity [Inhabited α] (v : SimpleVector α) (n : Nat)
    (h : v.capacity_ < n) (hs : v.size_ ≤ v.capacity_) (hN : v.size_ ≤ v.vector_.slots) :
    ∃ w, Resize v n = .ok w ∧
      w.GetSize = n ∧ w.GetCapacity = 2 * n ∧
      (live w).take v.size_ = live v ∧
      live w = live v ++ List.replicate (n - v.size_) default ∧
      (∀ i, v.size_ ≤ i → i < n → (live w)[i]? = some default) :=
  Resize_realloc v n (by omega) (by omega) hN

/-- Witness of C10: `Resize(3)` on `[7]` with capacity 2 gives `[7, 0, 0]` with
capacity 6. -/
theorem Resize_beyond_capacity_witness :
    ((2 : Nat) < 3 ∧ (⟨⟨[7, 9]⟩, 1, 2⟩ : SimpleVector Nat).size_ ≤ 2 ∧
      1 ≤ (⟨[7, 9]⟩ : ArrayPtr Nat).slots) ∧
    ∃ w, Resize (⟨⟨[7, 9]⟩, 1, 2⟩ : SimpleVector Nat) 3 = .ok w ∧
      w.GetSize = 3 ∧ w.GetCapacity = 6 ∧ live w = [7, 0, 0] :=
  ⟨by decide, by
    obtain ⟨w, h1, h2, h3, _, h5, _⟩ :=
      Resize_beyond_capacity (⟨⟨[7, 9]⟩, 1, 2⟩ : SimpleVector Nat) 3 (by decide) (by decide)
        (by decide)
    exact ⟨w, h1, h2, h3, h5⟩⟩

/-! ### The counters after each call -/

theorem bind_eq_ok {β γ : Type} (x : Except Fault β) (f : β → Except Fault γ) (c : γ)
    (h : (x >>= f) = .ok c) : ∃ a, x = .ok a ∧ f a = .ok c := by
  cases x with
  | error e => cases h
  | ok a => exact ⟨a, rfl, h⟩

theorem Reserve_counters [Inhabited α] (v w : SimpleVector α) (n : Nat)
    (h : SimpleVector.Reserve v n = .ok w) :
    w.size_ = v.size_ ∧ w.capacity_ = max v.capacity_ n := by
  unfold SimpleVector.Reserve at h
  split at h
  · obtain ⟨tmp, _, h2⟩ := bind_eq_ok _ _ _ h
    cases h2
    exact ⟨rfl, by simp only; omega⟩
  · cases h
    exact ⟨rfl, by omega⟩

theorem PushBack_counters [Inhabited α] (v w : SimpleVector α) (x : α)
    (h : PushBack v x = .ok w) :
    w.size_ = v.size_ + 1 ∧
      w.capacity_ = (if v.size_ < v.capacity_ then v.capacity_
                     else if v.capacity_ = 0 then 1 else v.capacity_ * 2) := by
  unfold PushBack at h
  by_cases hc : v.size_ < v.capacity_
  · rw [if_pos hc] at h
    obtain ⟨buf, _, h2⟩ := bind_eq_ok _ _ _ h
    cases h2
    exact ⟨rfl, by rw [if_pos hc]⟩
  · rw [if_neg hc] at h
    obtain ⟨buf, _, h2⟩ := bind_eq_ok _ _ _ h
    obtain ⟨buf2, _, h3⟩ := bind_eq_ok _ _ _ h2
    cases h3
    exact ⟨rfl, by rw [if_neg hc]; rfl⟩

/-- The tail of `Insert` behind the growth branch. -/
theorem Insert_tail_counters (v w : SimpleVector α) (p q : Nat) (x : α)
    (buf0 : ArrayPtr α) (c : Nat)
    (h : (shiftRight (v.size_ - p) v.size_ buf0 >>= fun buf =>
            buf.write p x >>= fun buf2 =>
              (pure (({ vector_ := buf2, size_ := v.size_ + 1, capacity_ := c } :
                SimpleVector α), p) : Except Fault (SimpleVector α × Nat))) = .ok (w, q)) :
    q = p ∧ w.size_ = v.size_ + 1 ∧ w.capacity_ = c := by
  obtain ⟨buf, _, h3⟩ := bind_eq_ok _ _ _ h
  obtain ⟨buf2, _, h4⟩ := bind_eq_ok _ _ _ h3
  cases h4
  exact ⟨rfl, rfl, rfl⟩

theorem Insert_counters [Inhabited α] (v w : SimpleVector α) (p q : Nat) (x : α)
    (h : SimpleVector.Insert v p x = .ok (w, q)) :
    p ≤ v.size_ ∧ q = p ∧ w.size_ = v.size_ + 1 ∧
      w.capacity_ = (if v.size_ = v.capacity_ then (if v.size_ ≠ 0 then v.size_ * 2 else 1)
                     else v.capacity_) := by
  unfold SimpleVector.Insert at h
  by_cases hp : p ≤ v.size_
  · rw [if_pos hp] at h
    dsimp only at h
    refine ⟨hp, ?_⟩
    by_cases hf : v.size_ = v.capacity_
    · rw [if_pos hf] at h ⊢
      by_cases h0 : v.size_ ≠ 0
      · rw [if_pos h0] at h ⊢
        obtain ⟨tmp, _, h2⟩ := bind_eq_ok _ _ _ h
        exact Insert_tail_counters v w p q x tmp _ h2
      · rw [if_neg h0] at h ⊢
        obtain ⟨tmp, _, h2⟩ := bind_eq_ok _ _ _ h
        exact Insert_tail_counters v w p q x tmp _ h2
    · rw [if_neg hf] at h ⊢
      exact Insert_tail_counters v w p q x _ _ h
  · rw [if_neg hp] at h
    cases h

/-- For an object that is no slot of the block, the call by reference is
`Insert`. -/
theorem Insert_eq_InsertRef [Inhabited α] (v : SimpleVector α) (index : Nat) (x : α) :
    SimpleVector.Insert v index x = InsertRef v index (.outside x) := by
  unfold SimpleVector.Insert InsertRef
  by_cases hp : index ≤ v.size_
  · rw [if_pos hp, if_pos hp]
    dsimp only
    by_cases hf : v.size_ = v.capacity_
    · rw [if_pos hf, if_pos hf]
      by_cases h0 : v.size_ ≠ 0
      · rw [if_pos h0, if_pos h0]
        cases copyRange v.vector_ v.size_ 0 (ArrayPtr.alloc v.size_) 0 <;> rfl
      · rw [if_neg h0, if_neg h0]
        cases copyRange v.vector_ v.size_ 0 (ArrayPtr.alloc 1) 0 <;> rfl
    · rw [if_neg hf, if_neg hf]
      rfl
  · rw [if_neg hp, if_neg hp]

/-- The tail of `InsertRef` behind the growth branch. -/
theorem InsertRef_tail_counters (v w : SimpleVector α) (p q : Nat) (x : ValueRef α)
    (buf0 : ArrayPtr α) (c : Nat) (released : Bool)
    (h : (shiftRight (v.size_ - p) v.size_ buf0 >>= fun buf =>
            x.read buf released >>= fun y =>
              buf.write p y >>= fun buf2 =>
                (pure (({ vector_ := buf2, size_ := v.size_ + 1, capacity_ := c } :
                  SimpleVector α), p) : Except Fault (SimpleVector α × Nat))) = .ok (w, q)) :
    q = p ∧ w.size_ = v.size_ + 1 ∧ w.capacity_ = c := by
  obtain ⟨buf, _, h3⟩ := bind_eq_ok _ _ _ h
  obtain ⟨y, _, h4⟩ := bind_eq_ok _ _ _ h3
  obtain ⟨buf2, _, h5⟩ := bind_eq_ok _ _ _ h4
  cases h5
  exact ⟨rfl, rfl, rfl⟩

theorem InsertRef_counters [Inhabited α] (v w : SimpleVector α) (p q : Nat) (x : ValueRef α)
    (h : InsertRef v p x = .ok (w, q)) :
    p ≤ v.size_ ∧ q = p ∧ w.size_ = v.size_ + 1 ∧
      w.capacity_ = (if v.size_ = v.capacity_ then (if v.size_ ≠ 0 then v.size_ * 2 else 1)
                     else v.capacity_) := by
  unfold InsertRef at h
  by_cases hp : p ≤ v.size_
  · rw [if_pos hp] at h
    dsimp only at h
    refine ⟨hp, ?_⟩
    by_cases hf : v.size_ = v.capacity_
    · rw [if_pos hf] at h ⊢
      by_cases h0 : v.size_ ≠ 0
      · rw [if_pos h0] at h ⊢
        obtain ⟨tmp, _, h2⟩ := bind_eq_ok _ _ _ h
        exact InsertRef_tail_counters v w p q x tmp _ true h2
      · rw [if_neg h0] at h ⊢
        obtain ⟨tmp, _, h2⟩ := bind_eq_ok _ _ _ h
        exact InsertRef_tail_counters v w p q x tmp _ true h2
    · rw [if_neg hf] at h ⊢
      exact InsertRef_tail_counters v w p q x _ _ false h
  · rw [if_neg hp] at h
    cases h

/-- A reference to a slot behind the position is read after the shift: on
`[1, 2, 3]` with capacity 4, `v.Insert(v.begin(), v[2])` inserts the 2 that the
shift has moved to offset 2, while a reference to a slot in front of the
position, or an object outside of the block, gives the value it names. -/
theorem InsertRef_reads_behind_shift :
    InsertRef (⟨⟨[1, 2, 3, 0]⟩, 3, 4⟩ : SimpleVector Nat) 0 (.slot 2)
      = .ok (⟨⟨[2, 1, 2, 3]⟩, 4, 4⟩, 0) ∧
    InsertRef (⟨⟨[1, 2, 3, 0]⟩, 3, 4⟩ : SimpleVector Nat) 2 (.slot 0)
      = .ok (⟨⟨[1, 2, 1, 3]⟩, 4, 4⟩, 2) ∧
    InsertRef (⟨⟨[1, 2, 3, 0]⟩, 3, 4⟩ : SimpleVector Nat) 0 (.outside 3)
      = .ok (⟨⟨[3, 1, 2, 3]⟩, 4, 4⟩, 0) := by
  decide

theorem PopBack_counters (v w : SimpleVector α) (h : PopBack v = .ok w) :
    v.size_ ≠ 0 ∧ w.size_ = v.size_ - 1 ∧ w.capacity_ = v.capacity_ ∧
      w.vector_ = v.vector_ := by
  unfold PopBack SimpleVector.IsEmpty at h
  by_cases h0 : v.size_ = 0
  · simp [h0] at h
  · simp only [h0, if_false] at h
    cases h
    exact ⟨h0, rfl, rfl, rfl⟩

theorem Erase_counters [MovedFrom α] (v w : SimpleVector α) (p q : Nat) (h : Erase v p = .ok (w, q)) :
    p < v.size_ ∧ q = p ∧ w.size_ = v.size_ - 1 ∧ w.capacity_ = v.capacity_ := by
  unfold Erase at h
  split at h
  · cases h
  · split at h
    · rename_i hp
      obtain ⟨buf, _, h2⟩ := bind_eq_ok _ _ _ h
      cases h2
      exact ⟨hp, rfl, rfl, rfl⟩
    · cases h

theorem Resize_counters [Inhabited α] (v w : SimpleVector α) (n : Nat)
    (h : Resize v n = .ok w) :
    w.size_ = n ∧
      w.capacity_ = (if v.size_ ≥ n then v.capacity_
                     else if n < v.capacity_ then v.capacity_ else n * 2) := by
  unfold Resize at h
  by_cases h1 : v.size_ ≥ n
  · rw [if_pos h1] at h
    cases h
    exact ⟨rfl, by rw [if_pos h1]⟩
  · rw [if_neg h1] at h
    by_cases h2 : n < v.capacity_
    · rw [if_pos ⟨by omega, h2⟩] at h
      obtain ⟨buf, _, h3⟩ := bind_eq_ok _ _ _ h
      cases h3
      exact ⟨rfl, by rw [if_neg h1, if_pos h2]⟩
    · rw [if_neg (fun hh => h2 hh.2)] at h
      obtain ⟨buf, _, h3⟩ := bind_eq_ok _ _ _ h
      cases h3
      exact ⟨rfl, by rw [if_neg h1, if_neg h2]⟩

theorem copyCtor_counters [Inhabited α] (v w : SimpleVector α) (h : copyCtor v = .ok w) :
    w.size_ = v.size_ ∧ w.capacity_ = v.capacity_ := by
  unfold copyCtor at h
  obtain ⟨tmp, _, h2⟩ := bind_eq_ok _ _ _ h
  cases h2
  exact ⟨rfl, rfl⟩

theorem ofSizeValue_counters [Inhabited α] (n : Nat) (x : α) (w : SimpleVector α)
    (h : ofSizeValue n x = .ok w) : w.size_ = n ∧ w.capacity_ = n := by
  unfold ofSizeValue at h
  obtain ⟨buf, _, h2⟩ := bind_eq_ok _ _ _ h
  cases h2
  exact ⟨rfl, rfl⟩

theorem ofList_counters [Inhabited α] (init : List α) (w : SimpleVector α)
    (h : ofList init = .ok w) : w.size_ = init.length ∧ w.capacity_ = init.length := by
  rw [ofList_eq] at h
  cases h
  exact ⟨rfl, rfl⟩

theorem store_counters (v w : SimpleVector α) (i : Nat) (x : α) (h : store v i x = .ok w) :
    w.size_ = v.size_ ∧ w.capacity_ = v.capacity_ := by
  unfold store at h
  obtain ⟨buf, _, h2⟩ := bind_eq_ok _ _ _ h
  cases h2
  exact ⟨rfl, rfl⟩

theorem assign_counters [Inhabited α] (v w : SimpleVector α) (rhs : Option (SimpleVector α))
    (h : assign v rhs = .ok w) :
    (rhs = none ∧ w = v) ∨ ∃ r, rhs = some r ∧ copyCtor r = .ok w := by
  cases rhs with
  | none =>
    cases h
    exact Or.inl ⟨rfl, rfl⟩
  | some r =>
    unfold assign at h
    obtain ⟨tmp, h1, h2⟩ := bind_eq_ok _ _ _ h
    cases h2
    exact Or.inr ⟨r, rfl, h1⟩

/-! ### What the comparison loops compute -/

theorem drop_take_cons (l : List α) (s i : Nat) (hi : i < s) (hs : s ≤ l.length) :
    (l.take s).drop i = l.get ⟨i, by omega⟩ :: (l.take s).drop (i + 1) := by
  have h : i < (l.take s).length := by
    simp only [List.length_take]; omega
  rw [List.drop_eq_getElem_cons h, List.getElem_take]
  rfl

theorem drop_take_nil (l : List α) (s i : Nat) (hi : s ≤ i) :
    (l.take s).drop i = [] := by
  apply List.drop_eq_nil_of_le
  simp only [List.length_take]
  omega

theorem equalLoop_spec [BEq α] (a b : ArrayPtr α) (s n i : Nat) (hi : i + n = s)
    (ha : s ≤ a.raw.length) (hb : s ≤ b.raw.length) :
    ∃ r, equalLoop a b n i = .ok r ∧
      (r = true ↔ List.Forall₂ (fun x y => (x == y) = true)
        ((a.raw.take s).drop i) ((b.raw.take s).drop i)) := by
  induction n generalizing i with
  | zero =>
    refine ⟨true, rfl, ?_⟩
    rw [drop_take_nil _ _ _ (by omega), drop_take_nil _ _ _ (by omega)]
    exact ⟨fun _ => List.Forall₂.nil, fun _ => rfl⟩
  | succ n ih =>
    have h1 : i < a.raw.length := by omega
    have h2 : i < b.raw.length := by omega
    rw [equalLoop, ArrayPtr.read_of_lt _ _ h1, bind_ok, ArrayPtr.read_of_lt _ _ h2, bind_ok,
      drop_take_cons a.raw s i (by omega) ha, drop_take_cons b.raw s i (by omega) hb]
    by_cases hxy : (a.raw.get ⟨i, h1⟩ == b.raw.get ⟨i, h2⟩) = true
    · rw [if_pos hxy]
      obtain ⟨r, hr, hiff⟩ := ih (i + 1) (by omega)
      refine ⟨r, hr, ?_⟩
      rw [hiff, List.forall₂_cons]
      exact ⟨fun h => ⟨hxy, h⟩, fun h => h.2⟩
    · rw [if_neg hxy]
      refine ⟨false, rfl, ?_⟩
      rw [List.forall₂_cons]
      exact ⟨fun h => (by cases h), fun h => absurd h.1 hxy⟩

theorem lex_cons_cons (r : α → α → Prop) (x y : α) (l₁ l₂ : List α) :
    List.Lex r (x :: l₁) (y :: l₂) ↔ r x y ∨ (x = y ∧ List.Lex r l₁ l₂) := by
  constructor
  · intro h
    cases h with
    | cons h => exact Or.inr ⟨rfl, h⟩
    | rel h => exact Or.inl h
  · rintro (h | ⟨rfl, h⟩)
    · exact List.Lex.rel h
    · exact List.Lex.cons h

theorem lexLoop_spec [LinearOrder α] (a b : ArrayPtr α) (sa sb n i : Nat)
    (hi : i + n = min sa sb) (ha : sa ≤ a.raw.length) (hb : sb ≤ b.raw.length) :
    ∃ r, lexLoop a b sa sb n i = .ok r ∧
      (r = true ↔ List.Lex (fun x y => x < y)
        ((a.raw.take sa).drop i) ((b.raw.take sb).drop i)) := by
  induction n generalizing i with
  | zero =>
    refine ⟨_, rfl, ?_⟩
    by_cases h1 : i = sa
    · by_cases h2 : i = sb
      · have h3 : sa = sb := by omega
        rw [drop_take_nil _ _ _ (by omega), drop_take_nil _ _ _ (by omega)]
        simp [h1, h3]
      · rw [drop_take_nil a.raw _ _ (by omega), drop_take_cons b.raw sb i (by omega) hb]
        simp only [h1, h2, decide_True, decide_not, Bool.and_self, Bool.true_and]
        have h3 : ¬ sa = sb := by omega
        simp only [h3, decide_False, Bool.not_false, true_iff]
        exact List.Lex.nil
    · rw [drop_take_nil b.raw _ _ (by omega)]
      simp [h1]
  | succ n ih =>
    have h1 : i < a.raw.length := by omega
    have h2 : i < b.raw.length := by omega
    rw [lexLoop, ArrayPtr.read_of_lt _ _ h1, bind_ok, ArrayPtr.read_of_lt _ _ h2, bind_ok,
      drop_take_cons a.raw sa i (by omega) ha, drop_take_cons b.raw sb i (by omega) hb]
    rw [lex_cons_cons]
    by_cases hxy : a.raw.get ⟨i, h1⟩ < b.raw.get ⟨i, h2⟩
    · rw [if_pos hxy]
      exact ⟨true, rfl, fun _ => Or.inl hxy, fun _ => rfl⟩
    · rw [if_neg hxy]
      by_cases hyx : b.raw.get ⟨i, h2⟩ < a.raw.get ⟨i, h1⟩
      · rw [if_pos hyx]
        refine ⟨false, rfl, fun h => (by cases h), fun h => ?_⟩
        rcases h with h | ⟨he, _⟩
        · exact absurd h hxy
        · rw [he] at hyx
          exact absurd hyx (lt_irrefl _)
      · rw [if_neg hyx]
        have he : a.raw.get ⟨i, h1⟩ = b.raw.get ⟨i, h2⟩ :=
          le_antisymm (not_lt.mp hyx) (not_lt.mp hxy)
        obtain ⟨r, hr, hiff⟩ := ih (i + 1) (by omega)
        refine ⟨r, hr, ?_⟩
        rw [hiff]
        exact ⟨fun h => Or.inr ⟨he, h⟩, fun h => h.elim (fun h => absurd h hxy) (fun h => h.2)⟩

/-! ### The comparison operators on the live ranges -/

theorem equal_spec [BEq α] (a b : SimpleVector α)
    (ha : a.size_ ≤ a.vector_.slots) (hb : b.size_ ≤ b.vector_.slots) :
    ∃ r, equal a b = .ok r ∧
      (r = true ↔ List.Forall₂ (fun x y => (x == y) = true) (live a) (live b)) := by
  by_cases hs : a.size_ = b.size_
  · obtain ⟨r, hr, hiff⟩ := equalLoop_spec a.vector_ b.vector_ a.size_ a.size_ 0
      (by omega) ha (by rw [hs]; exact hb)
    refine ⟨r, ?_, ?_⟩
    · rw [equal, if_neg (by simpa using hs)]
      exact hr
    · rw [hiff]
      simp only [live, List.drop_zero, hs]
  · refine ⟨false, ?_, fun h => (by cases h), fun h => ?_⟩
    · rw [equal, if_pos hs]
    · have hl := h.length_eq
      rw [length_live a ha, length_live b hb] at hl
      exact absurd hl hs

theorem less_spec [LinearOrder α] (a b : SimpleVector α)
    (ha : a.size_ ≤ a.vector_.slots) (hb : b.size_ ≤ b.vector_.slots) :
    ∃ r, less a b = .ok r ∧
      (r = true ↔ List.Lex (fun x y => x < y) (live a) (live b)) := by
  obtain ⟨r, hr, hiff⟩ := lexLoop_spec a.vector_ b.vector_ a.size_ b.size_
    (min a.size_ b.size_) 0 (by omega) ha hb
  refine ⟨r, hr, ?_⟩
  rw [hiff]
  simp only [live, List.drop_zero]

/-- Lexicographically less, spelled out: a common front part followed by a
smaller element, or a proper front part of the other list. -/
theorem lex_iff_first_difference (r : α → α → Prop) (l₁ l₂ : List α) :
    List.Lex r l₁ l₂ ↔
      (∃ p x y s t, l₁ = p ++ x :: s ∧ l₂ = p ++ y :: t ∧ r x y) ∨
      (∃ y t, l₂ = l₁ ++ y :: t) := by
  constructor
  · intro h
    induction h with
    | nil => exact Or.inr ⟨_, _, rfl⟩
    | @cons a l₁ l₂ _ ih =>
      rcases ih with ⟨p, x, y, s, t, h1, h2, h3⟩ | ⟨y, t, h1⟩
      · exact Or.inl ⟨a :: p, x, y, s, t, by rw [h1]; rfl, by rw [h2]; rfl, h3⟩
      · exact Or.inr ⟨y, t, by rw [h1]; rfl⟩
    | rel h => exact Or.inl ⟨[], _, _, _, _, rfl, rfl, h⟩
  · rintro (⟨p, x, y, s, t, h1, h2, h3⟩ | ⟨y, t, h1⟩)
    · subst h1 h2
      induction p with
      | nil => exact List.Lex.rel h3
      | cons a p ih => exact List.Lex.cons ih
    · subst h1
      induction l₁ with
      | nil => exact List.Lex.nil
      | cons a l ih => exact List.Lex.cons ih

theorem forall₂_beq_iff_index [BEq α] (l₁ l₂ : List α) :
    List.Forall₂ (fun x y => (x == y) = true) l₁ l₂ ↔
      l₁.length = l₂.length ∧
        ∀ i, i < l₁.length → ∃ x y, l₁[i]? = some x ∧ l₂[i]? = some y ∧ (x == y) = true := by
  rw [List.forall₂_iff_get]
  constructor
  · rintro ⟨hl, h⟩
    refine ⟨hl, fun i hi => ?_⟩
    have hi2 : i < l₂.length := by omega
    exact ⟨l₁.get ⟨i, hi⟩, l₂.get ⟨i, hi2⟩, List.getElem?_eq_getElem hi,
      List.getElem?_eq_getElem hi2, h i hi hi2⟩
  · rintro ⟨hl, h⟩
    refine ⟨hl, fun i h1 h2 => ?_⟩
    obtain ⟨x, y, hx, hy, hxy⟩ := h i h1
    rw [List.getElem?_eq_getElem h1] at hx
    rw [List.getElem?_eq_getElem h2] at hy
    cases hx
    cases hy
    exact hxy

theorem equal_of_live_eq [BEq α] (a b : SimpleVector α)
    (ha : a.size_ ≤ a.vector_.slots) (hb : b.size_ ≤ b.vector_.slots)
    (hrefl : ∀ x : α, (x == x) = true) (h : live a = live b) :
    equal a b = .ok true := by
  obtain ⟨r, hr, hiff⟩ := equal_spec a b ha hb
  have : r = true := by
    rw [hiff, h]
    exact List.forall₂_same.mpr (fun x _ => hrefl x)
  rw [hr, this]

/-! ## Comparison, copy and move -/

/-- C11. For two vectors whose live ranges lie in their blocks, `a == b`
returns, and it holds exactly when the sizes are equal and the elements at
every offset below the size compare equal with the `==` of the element type.
The result is the same for any two vectors with the same live sequences,
whatever their capacities and the slots behind their sizes; `a != b` is its
negation; and for a reflexive `==` a vector built from an initializer
sequence equals the vector built from the same sequence. -/
theorem equal_contract [BEq α] [Inhabited α] (a b : SimpleVector α)
    (ha : a.size_ ≤ a.vector_.slots) (hb : b.size_ ≤ b.vector_.slots) :
    ∃ r, equal a b = .ok r ∧ notEqual a b = .ok (!r) ∧
      (r = true ↔ a.GetSize = b.GetSize ∧
        ∀ i, i < a.GetSize →
          ∃ x y, (live a)[i]? = some x ∧ (live b)[i]? = some y ∧ (x == y) = true) ∧
      (∀ a2 b2 : SimpleVector α, a2.size_ ≤ a2.vector_.slots → b2.size_ ≤ b2.vector_.slots →
        live a2 = live a → live b2 = live b → equal a2 b2 = .ok r) ∧
      ((∀ x : α, (x == x) = true) → ∀ init : List α,
        ∃ u, ofList init = .ok u ∧ equal u u = .ok true) := by
  obtain ⟨r, hr, hiff⟩ := equal_spec a b ha hb
  refine ⟨r, hr, ?_, ?_, ?_, ?_⟩
  · rw [notEqual, hr]
    rfl
  · rw [hiff, forall₂_beq_iff_index, length_live a ha, length_live b hb]
    rfl
  · intro a2 b2 ha2 hb2 e1 e2
    obtain ⟨r2, hr2, hiff2⟩ := equal_spec a2 b2 ha2 hb2
    rw [e1, e2, ← hiff] at hiff2
    rw [hr2, Bool.eq_iff_iff.mpr hiff2]
  · intro hrefl init
    refine ⟨_, ofList_eq init, ?_⟩
    exact equal_of_live_eq _ _ (Nat.le_refl _) (Nat.le_refl _) hrefl rfl

/-- Witness of C11: `[1, 2]` with capacity 2 and `[1, 2]` with capacity 4 and
stale slots compare equal. -/
theorem equal_contract_witness :
    ((⟨⟨[1, 2]⟩, 2, 2⟩ : SimpleVector Nat).size_ ≤ (⟨[1, 2]⟩ : ArrayPtr Nat).slots ∧
      (⟨⟨[1, 2, 7, 9]⟩, 2, 4⟩ : SimpleVector Nat).size_ ≤ (⟨[1, 2, 7, 9]⟩ : ArrayPtr Nat).slots) ∧
    ∃ r, equal (⟨⟨[1, 2]⟩, 2, 2⟩ : SimpleVector Nat) ⟨⟨[1, 2, 7, 9]⟩, 2, 4⟩ = .ok r ∧
      r = true :=
  ⟨by decide, by
    obtain ⟨r, h1, _⟩ :=
      equal_contract (⟨⟨[1, 2]⟩, 2, 2⟩ : SimpleVector Nat) ⟨⟨[1, 2, 7, 9]⟩, 2, 4⟩
        (by decide) (by decide)
    refine ⟨r, h1, ?_⟩
    have h2 : equal (⟨⟨[1, 2]⟩, 2, 2⟩ : SimpleVector Nat) ⟨⟨[1, 2, 7, 9]⟩, 2, 4⟩ = .ok true := by
      decide
    rw [h2] at h1
    cases h1
    rfl⟩

/-- C12. For two vectors over a linearly ordered element type whose live
ranges lie in their blocks, `a < b` returns, and it holds exactly when the live
sequence of `a` is lexicographically less than that of `b`: the two share a
front part behind which the element of `a` is less than the element of `b`,
or the live sequence of `a` is a proper front part of that of `b`. In the
latter case `a < b` holds and `b < a` does not. -/
theorem less_contract [LinearOrder α] (a b : SimpleVector α)
    (ha : a.size_ ≤ a.vector_.slots) (hb : b.size_ ≤ b.vector_.slots) :
    ∃ r, less a b = .ok r ∧
      (r = true ↔ List.Lex (fun x y => x < y) (live a) (live b)) ∧
      (r = true ↔
        (∃ p x y s t, live a = p ++ x :: s ∧ live b = p ++ y :: t ∧ x < y) ∨
        (∃ y t, live b = live a ++ y :: t)) ∧
      ((∃ y t, live b = live a ++ y :: t) → r = true ∧ less b a = .ok false) := by
  obtain ⟨r, hr, hiff⟩ := less_spec a b ha hb
  refine ⟨r, hr, hiff, ?_, ?_⟩
  · rw [hiff]
    exact lex_iff_first_difference _ _ _
  · intro hpre
    have hab : List.Lex (fun x y : α => x < y) (live a) (live b) :=
      (lex_iff_first_difference _ _ _).mpr (Or.inr hpre)
    refine ⟨hiff.mpr hab, ?_⟩
    obtain ⟨r2, hr2, hiff2⟩ := less_spec b a hb ha
    have : r2 = false := by
      cases r2 with
      | false => rfl
      | true => exact absurd (hiff2.mp rfl) (asymm hab)
    rw [hr2, this]

/-- Witness of C12: `[1, 2]` is less than `[1, 2, 0]`, and not the other way
round. -/
theorem less_contract_witness :
    ((⟨⟨[1, 2]⟩, 2, 2⟩ : SimpleVector Nat).size_ ≤ (⟨[1, 2]⟩ : ArrayPtr Nat).slots ∧
      (⟨⟨[1, 2, 0]⟩, 3, 3⟩ : SimpleVector Nat).size_ ≤ (⟨[1, 2, 0]⟩ : ArrayPtr Nat).slots) ∧
    ∃ r, less (⟨⟨[1, 2]⟩, 2, 2⟩ : SimpleVector Nat) ⟨⟨[1, 2, 0]⟩, 3, 3⟩ = .ok r ∧ r = true ∧
      less (⟨⟨[1, 2, 0]⟩, 3, 3⟩ : SimpleVector Nat) ⟨⟨[1, 2]⟩, 2, 2⟩ = .ok false :=
  ⟨by decide, by
    obtain ⟨r, h1, _, _, h4⟩ :=
      less_contract (⟨⟨[1, 2]⟩, 2, 2⟩ : SimpleVector Nat) ⟨⟨[1, 2, 0]⟩, 3, 3⟩
        (by decide) (by decide)
    obtain ⟨h5, h6⟩ := h4 ⟨0, [], rfl⟩
    exact ⟨r, h1, h5, h6⟩⟩

/-- C13. Move construction from `a` returns; `a` reports size 0 afterwards,
and the new vector has the size and exactly the live sequence that `a` had,
in the same order. -/
theorem moveCtor_contract [Inhabited α] (a : SimpleVector α) :
    (moveCtor a).2.GetSize = 0 ∧
    (moveCtor a).1.GetSize = a.GetSize ∧
    live (moveCtor a).1 = live a :=
  ⟨rfl, rfl, rfl⟩

theorem copyCtor_eq [Inhabited α] (a : SimpleVector α) (hN : a.size_ ≤ a.vector_.slots) :
    copyCtor a = .ok ⟨⟨live a⟩, a.size_, a.capacity_⟩ := by
  rw [copyCtor, copyRange_alloc a a.size_ hN (Nat.le_refl _)]
  simp only [Nat.sub_self, List.replicate_zero, List.append_nil]
  rfl

/-- C14. Copy construction from a vector `a` with `size <= capacity` whose live
range lies in its block returns a vector `b` of the same size and live
sequence, so that `b == a`, with `capacity(b) >= size(b)`; copy assignment of
`a` to any other vector gives that same `b`, and self-assignment returns the
vector as it was. The source vector is passed by const reference and is not
part of the result. -/
theorem copy_contract [DecidableEq α] [Inhabited α] (a : SimpleVector α)
    (hs : a.size_ ≤ a.capacity_) (hN : a.size_ ≤ a.vector_.slots) :
    ∃ b, copyCtor a = .ok b ∧
      b.GetSize = a.GetSize ∧ live b = live a ∧ equal b a = .ok true ∧
      b.GetSize ≤ b.GetCapacity ∧
      (∀ c : SimpleVector α, assign c (some a) = .ok b) ∧
      (∀ c : SimpleVector α, assign c none = .ok c) := by
  have hl := length_live a hN
  have hlive : live (⟨⟨live a⟩, a.size_, a.capacity_⟩ : SimpleVector α) = live a := by
    simp only [live]
    rw [List.take_take, Nat.min_self]
  refine ⟨_, copyCtor_eq a hN, rfl, hlive, ?_, hs, ?_, fun _ => rfl⟩
  · exact equal_of_live_eq _ _ (by simp only [ArrayPtr.slots, hl]; exact Nat.le_refl _) hN
      (fun x => beq_self_eq_true x) hlive
  · intro c
    rw [assign, copyCtor_eq a hN]
    rfl

/-- Witness of C14: the copy of `[1, 2, 3]` with capacity 4. -/
theorem copy_contract_witness :
    ((⟨⟨[1, 2, 3, 0]⟩, 3, 4⟩ : SimpleVector Nat).size_ ≤ 4 ∧
      3 ≤ (⟨[1, 2, 3, 0]⟩ : ArrayPtr Nat).slots) ∧
    ∃ b, copyCtor (⟨⟨[1, 2, 3, 0]⟩, 3, 4⟩ : SimpleVector Nat) = .ok b ∧
      b.GetSize = 3 ∧ live b = [1, 2, 3] ∧
      equal b (⟨⟨[1, 2, 3, 0]⟩, 3, 4⟩ : SimpleVector Nat) = .ok true :=
  ⟨by decide, by
    obtain ⟨b, h1, h2, h3, h4, _⟩ :=
      copy_contract (⟨⟨[1, 2, 3, 0]⟩, 3, 4⟩ : SimpleVector Nat) (by decide) (by decide)
    exact ⟨b, h1, h2, h3, h4⟩⟩

/-- C15. The scenario of the spec, step by step: from the empty vector,
`PushBack` of 1, 2, 3 gives capacity 1, then 2, then 4, and size 3; `Insert`
of 10 at position 1 gives `[1, 10, 2, 3]`; `Erase` at position 0 gives
`[10, 2, 3]`; there `At(5)` fails with the out-of-range error and `At(1)`
returns 2. -/
theorem scenario_push_insert_erase :
    ∃ v1 v2 v3 v4 v5 : SimpleVector Nat,
      PushBack empty 1 = .ok v1 ∧ v1.GetCapacity = 1 ∧
      PushBack v1 2 = .ok v2 ∧ v2.GetCapacity = 2 ∧
      PushBack v2 3 = .ok v3 ∧ v3.GetCapacity = 4 ∧ v3.GetSize = 3 ∧
      SimpleVector.Insert v3 1 10 = .ok (v4, 1) ∧ live v4 = [1, 10, 2, 3] ∧
      Erase v4 0 = .ok (v5, 0) ∧ live v5 = [10, 2, 3] ∧
      At v5 5 = .error .outOfRange ∧ At v5 1 = .ok 2 :=
  ⟨⟨⟨[1]⟩, 1, 1⟩, ⟨⟨[1, 2]⟩, 2, 2⟩, ⟨⟨[1, 2, 3, 0]⟩, 3, 4⟩, ⟨⟨[1, 10, 2, 3]⟩, 4, 4⟩,
    ⟨⟨[10, 2, 3, 3]⟩, 3, 4⟩, by decide⟩

/-! ## Invariants over the reachable vectors -/

/-- C16. Every reachable vector has `size <= capacity`: the constructors
(default, size, size and value, initializer list, copy, move for both vectors,
reservation) establish it, and copy assignment, `Reserve`, `PushBack`,
`Insert` (also with a reference to a slot of the vector as its value),
`PopBack`, `Erase`, `Clear`, `Resize`, `swap` and assignment through
`operator[]` keep it. -/
theorem size_le_capacity_of_reachable [Inhabited α] [MovedFrom α] (v : SimpleVector α) (h : Reachable v) :
    v.GetSize ≤ v.GetCapacity := by
  simp only [GetSize, GetCapacity]
  induction h with
  | empty => exact Nat.le_refl 0
  | ofSize n => exact Nat.le_refl n
  | ofSizeValue n x w h =>
    obtain ⟨h1, h2⟩ := ofSizeValue_counters n x w h
    omega
  | ofList init w h =>
    obtain ⟨h1, h2⟩ := ofList_counters init w h
    omega
  | copyCtor v w _ h ih =>
    obtain ⟨h1, h2⟩ := copyCtor_counters v w h
    omega
  | moveCtorNew v _ ih => exact ih
  | moveCtorOld v _ ih => exact Nat.zero_le _
  | reserveCtor n w h =>
    obtain ⟨h1, h2⟩ := Reserve_counters _ w n h
    rw [h1]
    exact Nat.zero_le _
  | assign v rhs w _ hr h ih ihr =>
    rcases assign_counters v w rhs h with ⟨_, rfl⟩ | ⟨r, hrhs, hc⟩
    · exact ih
    · obtain ⟨h1, h2⟩ := copyCtor_counters r w hc
      have := ihr r hrhs
      omega
  | Reserve v n w _ h ih =>
    obtain ⟨h1, h2⟩ := Reserve_counters v w n h
    omega
  | PushBack v x w _ h ih =>
    obtain ⟨h1, h2⟩ := PushBack_counters v w x h
    rw [h1, h2]
    split
    · omega
    · split <;> omega
  | Insert v p x w q _ h ih =>
    obtain ⟨_, _, h1, h2⟩ := Insert_counters v w p q x h
    rw [h1, h2]
    split
    · split <;> omega
    · omega
  | InsertRef v p x w q _ h ih =>
    obtain ⟨_, _, h1, h2⟩ := InsertRef_counters v w p q x h
    rw [h1, h2]
    split
    · split <;> omega
    · omega
  | PopBack v w _ h ih =>
    obtain ⟨_, h1, h2, _⟩ := PopBack_counters v w h
    omega
  | Erase v p w q _ h ih =>
    obtain ⟨_, _, h1, h2⟩ := Erase_counters v w p q h
    omega
  | Clear v _ ih => exact Nat.zero_le _
  | Resize v n w _ h ih =>
    obtain ⟨h1, h2⟩ := Resize_counters v w n h
    rw [h1, h2]
    split
    · omega
    · split <;> omega
  | store v i x w _ _ h ih =>
    obtain ⟨h1, h2⟩ := store_counters v w i x h
    omega
  | swapSelf v u _ _ _ ihu => exact ihu
  | swapOther v u _ _ ihv _ => exact ihv

/-- Witness of C16: the vector `[1]` after one `PushBack` on the empty
vector. -/
theorem size_le_capacity_of_reachable_witness :
    Reachable (⟨⟨[1]⟩, 1, 1⟩ : SimpleVector Nat) ∧
    (⟨⟨[1]⟩, 1, 1⟩ : SimpleVector Nat).GetSize ≤ (⟨⟨[1]⟩, 1, 1⟩ : SimpleVector Nat).GetCapacity :=
  ⟨Reachable.PushBack SimpleVector.empty 1 _ Reachable.empty (by decide),
    size_le_capacity_of_reachable _
      (Reachable.PushBack SimpleVector.empty 1 _ Reachable.empty (by decide))⟩

/-- C17, evaluated on the code. Reachable vectors report a capacity above
the number of slots of their block: `Resize(1)` on the empty vector leaves a
block of 1 slot with capacity 2; the copy of `[1, 2, 3]` with capacity 4 has
a block of 3 slots and capacity 4; after a move from that vector the source
has a block of 3 slots and capacity 4. -/
theorem capacity_exceeds_block :
    (Reachable (⟨⟨[0]⟩, 1, 2⟩ : SimpleVector Nat) ∧
      Resize (empty : SimpleVector Nat) 1 = .ok ⟨⟨[0]⟩, 1, 2⟩ ∧
      (⟨⟨[0]⟩, 1, 2⟩ : SimpleVector Nat).GetCapacity = 2 ∧
      (⟨⟨[0]⟩, 1, 2⟩ : SimpleVector Nat).vector_.slots = 1) ∧
    (pushAll (empty : SimpleVector Nat) [1, 2, 3] = .ok ⟨⟨[1, 2, 3, 0]⟩, 3, 4⟩ ∧
      copyCtor (⟨⟨[1, 2, 3, 0]⟩, 3, 4⟩ : SimpleVector Nat) = .ok ⟨⟨[1, 2, 3]⟩, 3, 4⟩ ∧
      (moveCtor (⟨⟨[1, 2, 3, 0]⟩, 3, 4⟩ : SimpleVector Nat)).2 = ⟨⟨[0, 0, 0]⟩, 0, 4⟩) :=
  ⟨⟨Reachable.Resize SimpleVector.empty 1 _ Reachable.empty (by decide), by decide, rfl, rfl⟩,
    by decide, by decide, by decide⟩

/-- C18, evaluated on the code. Calls within their preconditions on reachable
vectors leave the block: on `{1, 2}`, a full vector, `Insert` at position 1
writes behind the block it has just allocated; after `Resize(1)` on the empty
vector, which reports capacity 2 over a block of 1 slot, `PushBack` writes
at offset 1. -/
theorem reachable_call_leaves_block :
    (Reachable (⟨⟨[1, 2]⟩, 2, 2⟩ : SimpleVector Nat) ∧
      1 ≤ (⟨⟨[1, 2]⟩, 2, 2⟩ : SimpleVector Nat).GetSize ∧
      SimpleVector.Insert (⟨⟨[1, 2]⟩, 2, 2⟩ : SimpleVector Nat) 1 5 = .error .outOfBounds) ∧
    (Reachable (⟨⟨[0]⟩, 1, 2⟩ : SimpleVector Nat) ∧
      PushBack (⟨⟨[0]⟩, 1, 2⟩ : SimpleVector Nat) 7 = .error .outOfBounds) :=
  ⟨⟨Reachable.ofList [1, 2] _ (by decide), by decide, by decide⟩,
    Reachable.Resize SimpleVector.empty 1 _ Reachable.empty (by decide), by decide⟩

/-- C19. Whenever `Reserve`, `PushBack`, `Insert` (with an object or with a
reference to a slot of the vector as its value), `PopBack`, `Erase`, `Clear`
or `Resize` returns, the capacity it leaves is at least the capacity before
the call. On a vector with `size <= capacity` whose block holds its capacity,
`Reserve`, `PushBack` and `Resize` return for every argument, `PopBack` on a
non-empty vector, `Erase` at every position below the size, and `Insert` at
every position up to the size when there is spare capacity or the capacity
is 0. -/
theorem capacity_never_decreases [Inhabited α] [MovedFrom α] (v : SimpleVector α) :
    (∀ n w, SimpleVector.Reserve v n = .ok w → v.GetCapacity ≤ w.GetCapacity) ∧
    (∀ x w, PushBack v x = .ok w → v.GetCapacity ≤ w.GetCapacity) ∧
    (∀ p x w q, SimpleVector.Insert v p x = .ok (w, q) → v.GetCapacity ≤ w.GetCapacity) ∧
    (∀ p x w q, InsertRef v p x = .ok (w, q) → v.GetCapacity ≤ w.GetCapacity) ∧
    (∀ w, PopBack v = .ok w → v.GetCapacity ≤ w.GetCapacity) ∧
    (∀ p w q, Erase v p = .ok (w, q) → v.GetCapacity ≤ w.GetCapacity) ∧
    v.GetCapacity ≤ (Clear v).GetCapacity ∧
    (∀ n w, Resize v n = .ok w → v.GetCapacity ≤ w.GetCapacity) ∧
    (v.size_ ≤ v.capacity_ → v.capacity_ ≤ v.vector_.slots →
      (∀ n, ∃ w, SimpleVector.Reserve v n = .ok w) ∧
      (∀ x, ∃ w, PushBack v x = .ok w) ∧
      (∀ p x, p ≤ v.size_ → v.size_ < v.capacity_ ∨ v.capacity_ = 0 →
        ∃ w, SimpleVector.Insert v p x = .ok (w, p)) ∧
      (v.size_ ≠ 0 → ∃ w, PopBack v = .ok w) ∧
      (∀ p, p < v.size_ → ∃ w, Erase v p = .ok (w, p)) ∧
      (∀ n, ∃ w, Resize v n = .ok w)) := by
  simp only [GetCapacity]
  refine ⟨?_, ?_, ?_, ?_, ?_, ?_, Nat.le_refl _, ?_, ?_⟩
  · intro n w h
    obtain ⟨_, h2⟩ := Reserve_counters v w n h
    omega
  · intro x w h
    obtain ⟨_, h2⟩ := PushBack_counters v w x h
    rw [h2]
    split
    · exact Nat.le_refl _
    · split <;> omega
  · intro p x w q h
    obtain ⟨_, _, _, h2⟩ := Insert_counters v w p q x h
    rw [h2]
    split
    · split <;> omega
    · exact Nat.le_refl _
  · intro p x w q h
    obtain ⟨_, _, _, h2⟩ := InsertRef_counters v w p q x h
    rw [h2]
    split
    · split <;> omega
    · exact Nat.le_refl _
  · intro w h
    obtain ⟨_, _, h2, _⟩ := PopBack_counters v w h
    omega
  · intro p w q h
    obtain ⟨_, _, _, h2⟩ := Erase_counters v w p q h
    omega
  · intro n w h
    obtain ⟨_, h2⟩ := Resize_counters v w n h
    rw [h2]
    split
    · exact Nat.le_refl _
    · split <;> omega
  · intro hs hN
    have hN1 : v.capacity_ ≤ v.vector_.raw.length := hN
    have hsN : v.size_ ≤ v.vector_.slots := Nat.le_trans hs hN
    refine ⟨?_, ?_, ?_, ?_, ?_, ?_⟩
    · intro n
      rcases Nat.lt_or_ge v.capacity_ n with h | h
      · exact ⟨_, Reserve_of_gt v n h hs hsN⟩
      · exact ⟨_, Reserve_of_le v n h⟩
    · intro x
      obtain ⟨w, hw, _⟩ := PushBack_step v x hs hN
      exact ⟨w, hw⟩
    · intro p x hp hc
      rcases hc with hc | hc
      · obtain ⟨w, hw, _⟩ := Insert_with_spare v p x hp hc hN
        exact ⟨w, hw⟩
      · have h0 : v.size_ = 0 := by omega
        have hp0 : p = 0 := by omega
        rw [hp0]
        exact ⟨_, Insert_of_empty v x h0 hc⟩
    · intro h0
      refine ⟨{ v with size_ := v.size_ - 1 }, ?_⟩
      simp [PopBack, SimpleVector.IsEmpty, h0]
      rfl
    · intro p hp
      obtain ⟨w, hw, _⟩ := Erase_eq v p hp hsN
      exact ⟨w, hw⟩
    · intro n
      rcases Nat.lt_or_ge v.size_ n with h1 | h1
      · rcases Nat.lt_or_ge n v.capacity_ with h2 | h2
        · exact ⟨_, Resize_of_between v n h1 h2 (Nat.lt_of_lt_of_le h2 hN)⟩
        · exact ⟨_, Resize_of_ge_capacity v n h1 h2 hsN⟩
      · exact ⟨_, Resize_of_le v n h1⟩

/-- C20. For two vectors over a linearly ordered element type (with `==`
the equality of that type) whose live ranges lie in their blocks, the six
operators return and agree: exactly one of `a < b`, `a == b`, `b < a` holds;
`a <= b` is `a < b || a == b`; `a > b` is `b < a`; `a >= b` is `b <= a`
(and is `b < a || a == b`); `a != b` is the negation of `a == b`. -/
theorem comparison_consistent [LinearOrder α] (a b : SimpleVector α)
    (ha : a.size_ ≤ a.vector_.slots) (hb : b.size_ ≤ b.vector_.slots) :
    ∃ lt eq gt : Bool, less a b = .ok lt ∧ equal a b = .ok eq ∧ less b a = .ok gt ∧
      ((lt = true ∧ eq = false ∧ gt = false) ∨ (lt = false ∧ eq = true ∧ gt = false) ∨
        (lt = false ∧ eq = false ∧ gt = true)) ∧
      lessEq a b = .ok (lt || eq) ∧
      greater a b = .ok gt ∧
      greaterEq a b = lessEq b a ∧ greaterEq a b = .ok (gt || eq) ∧
      notEqual a b = .ok (!eq) := by
  obtain ⟨lt, hlt, ilt⟩ := less_spec a b ha hb
  obtain ⟨gt, hgt, igt⟩ := less_spec b a hb ha
  obtain ⟨eq, heq, ieq⟩ := equal_spec a b ha hb
  have ieq2 : eq = true ↔ live a = live b := by
    rw [ieq]
    simp only [beq_iff_eq, List.forall₂_eq_eq_eq]
  have tri : (lt = true ∧ eq = false ∧ gt = false) ∨ (lt = false ∧ eq = true ∧ gt = false) ∨
      (lt = false ∧ eq = false ∧ gt = true) := by
    rcases trichotomous_of (List.Lex (fun x y : α => x < y)) (live a) (live b) with h | h | h
    · have h1 : lt = true := ilt.mpr h
      have h2 : ¬ gt = true := fun hg => asymm h (igt.mp hg)
      have h3 : ¬ eq = true := fun he => by
        rw [ieq2.mp he] at h
        exact asymm h h
      exact Or.inl ⟨h1, by simpa using h3, by simpa using h2⟩
    · have h1 : ¬ lt = true := fun hl => by
        have := ilt.mp hl
        rw [h] at this
        exact asymm this this
      have h2 : ¬ gt = true := fun hg => by
        have := igt.mp hg
        rw [h] at this
        exact asymm this this
      exact Or.inr (Or.inl ⟨by simpa using h1, ieq2.mpr h, by simpa using h2⟩)
    · have h1 : gt = true := igt.mpr h
      have h2 : ¬ lt = true := fun hl => asymm h (ilt.mp hl)
      have h3 : ¬ eq = true := fun he => by
        rw [ieq2.mp he] at h
        exact asymm h h
      exact Or.inr (Or.inr ⟨by simpa using h2, by simpa using h3, h1⟩)
  refine ⟨lt, eq, gt, hlt, heq, hgt, tri, ?_, hgt, ?_, ?_, ?_⟩
  · rw [lessEq, hgt]
    rcases tri with ⟨h1, h2, h3⟩ | ⟨h1, h2, h3⟩ | ⟨h1, h2, h3⟩ <;> rw [h1, h2, h3] <;> rfl
  · rw [greaterEq, lessEq]
  · rw [greaterEq, hlt]
    rcases tri with ⟨h1, h2, h3⟩ | ⟨h1, h2, h3⟩ | ⟨h1, h2, h3⟩ <;> rw [h1, h2, h3] <;> rfl
  · rw [notEqual, heq]
    rfl

/-- Witness of C20 on `[1, 2]` and `[1, 3]`: `a < b` holds, `a == b` and
`b < a` do not, and `a <= b` holds. -/
theorem comparison_consistent_witness :
    ((⟨⟨[1, 2]⟩, 2, 2⟩ : SimpleVector Nat).size_ ≤ (⟨[1, 2]⟩ : ArrayPtr Nat).slots ∧
      (⟨⟨[1, 3]⟩, 2, 2⟩ : SimpleVector Nat).size_ ≤ (⟨[1, 3]⟩ : ArrayPtr Nat).slots) ∧
    ∃ lt eq gt : Bool,
      less (⟨⟨[1, 2]⟩, 2, 2⟩ : SimpleVector Nat) ⟨⟨[1, 3]⟩, 2, 2⟩ = .ok lt ∧
      equal (⟨⟨[1, 2]⟩, 2, 2⟩ : SimpleVector Nat) ⟨⟨[1, 3]⟩, 2, 2⟩ = .ok eq ∧
      less (⟨⟨[1, 3]⟩, 2, 2⟩ : SimpleVector Nat) ⟨⟨[1, 2]⟩, 2, 2⟩ = .ok gt ∧
      lessEq (⟨⟨[1, 2]⟩, 2, 2⟩ : SimpleVector Nat) ⟨⟨[1, 3]⟩, 2, 2⟩ = .ok (lt || eq) :=
  ⟨by decide, by
    obtain ⟨lt, eq, gt, h1, h2, h3, _, h5, _⟩ :=
      comparison_consistent (⟨⟨[1, 2]⟩, 2, 2⟩ : SimpleVector Nat) ⟨⟨[1, 3]⟩, 2, 2⟩
        (by decide) (by decide)
    exact ⟨lt, eq, gt, h1, h2, h3, h5⟩⟩

end SimpleVectorModel
